import Mathlib

/-!
# A shallow embedding of the rittorrent file store, scheduler and engine arms

This development models the parts of the rittorrent BitTorrent client that the
verified properties talk about:

* `src/file.rs`   — the `DownloadFile` piece/block store (`process_block`,
  `get_block`, `piece_is_complete`, `left`, the constructors and the
  SHA-1 verification loop, here parameterised over an arbitrary digest
  function `H`);
* `src/strategy.rs` — the block scheduler `pick_blocks`;
* `src/main.rs`   — the engine arms that the claims reference (the
  `Request` message handler together with the main loop's error handling,
  and the request-timeout timer arm);
* `src/peers.rs`  — the receiving half of `do_handshake`;
* the timer service (`Schedule`/`Cancel`), modelled from the spec because
  the `timer.rs` present in the tree is a stale version without the
  `Cancel` request its callers use.

Bytes are modelled as `Nat`, files as `List Nat`, Rust `Range<usize>` as
`Nat × Nat` (start, end).  Machine integers are `Nat`; the points where the
Rust code can panic or diverge on untrusted input (buffer-size underflow in
`get_block`, the 4 KiB verification read loop) are modelled with `Option`,
`none` standing for a panic or a stuck loop.
-/

/-- Rust `Range<usize>` as a (start, end) pair. -/
abbrev RangeN := Nat × Nat

/-- `file.rs`: `BlockInfo { piece, range }`. -/
structure BlockInfo where
  piece : Nat
  range : RangeN
  deriving DecidableEq

/-- `file.rs`: `Block { piece, offset, data }`. -/
structure Block where
  piece : Nat
  offset : Nat
  data : List Nat
  deriving DecidableEq

/-- `Block::info`: the identity of a block, without its payload. -/
def Block.info (b : Block) : BlockInfo :=
  { piece := b.piece, range := (b.offset, b.offset + b.data.length) }

/-- `file.rs`: the per-piece descriptor `Piece`. -/
structure DFPiece where
  unfilled : List RangeN
  all_blocks : List RangeN
  offset : Nat
  length : Nat
  hash : List Nat
  deriving DecidableEq

/-- `file.rs`: `DownloadFile`.  The backing `File` is its byte content. -/
structure DF where
  pieces : List DFPiece
  bitfield : List Bool
  file : List Nat
  downloaded : Nat
  total_size : Nat
  deriving DecidableEq

/-- `file.rs`: `const BLOCK_SIZE: usize = 16384`. -/
def BLOCK_SIZE : Nat := 16384

/-- Fuelled version of `get_block_ranges`; the loop advances `current` by
`size ≥ 1` each round, so `e - start` rounds of fuel always suffice. -/
def get_block_ranges_fuel : Nat → Nat → Nat → Nat → List RangeN
  | 0, start, e, _ =>
    -- with zero fuel, `start + size < e` can no longer hold for `size ≥ 1`
    if start < e then [(start, e)] else []
  | fuel + 1, start, e, size =>
    if start + size < e then (start, start + size) :: get_block_ranges_fuel fuel (start + size) e size
    else if start < e then [(start, e)] else []

/-- `file.rs`: `get_block_ranges(start, end, size)` — split `[start, end)`
into successive `size`-byte chunks plus a final short remainder. -/
def get_block_ranges (start e size : Nat) : List RangeN :=
  get_block_ranges_fuel (e - start) start e size

/-- `Vec::swap_remove(i)`: replace element `i` with the last element and pop. -/
def swapRemove (l : List RangeN) (i : Nat) : List RangeN :=
  match l.getLast? with
  | none => []
  | some last => (l.set i last).dropLast

/-- `iter().position(|x| *x == r)` on a list of ranges. -/
def position : List RangeN → RangeN → Option Nat
  | [], _ => none
  | x :: xs, r => if x = r then some 0 else (position xs r).map (· + 1)

/-- The contiguous byte fslice `[a, a + n)` of a file. -/
def fslice (f : List Nat) (a n : Nat) : List Nat := (f.drop a).take n

/-- `File::set_len(n)`: truncate or zero-extend to exactly `n` bytes. -/
def setLen (f : List Nat) (n : Nat) : List Nat :=
  f.take n ++ List.replicate (n - f.length) 0

/-- Seek to `pos` and `write_all(d)`: splice `d` over the file, zero-filling
any gap if the write starts past the end of the file. -/
def writeAt (f : List Nat) (pos : Nat) (d : List Nat) : List Nat :=
  if pos ≤ f.length then f.take pos ++ d ++ f.drop (pos + d.length)
  else f ++ List.replicate (pos - f.length) 0 ++ d

/-- The 4 KiB verification read loop of `process_block`, fuelled.  Each round
reads `min 4096 remaining` bytes from the file at the cursor and feeds them to
the hasher; `none` models the loop getting stuck when a read returns 0 bytes
(end of file reached early).  One unit of fuel per round always suffices when
`fuel ≥ remaining`, since each round consumes at least one byte. -/
def hashLoopF : Nat → List Nat → Nat → Nat → List Nat → Option (List Nat)
  | _, _, _, 0, acc => some acc
  | 0, _, _, _ + 1, _ => none
  | fuel + 1, f, pos, r + 1, acc =>
    if (fslice f pos (min 4096 (r + 1))).length = 0 then none
    else
      hashLoopF fuel f (pos + (fslice f pos (min 4096 (r + 1))).length)
        (r + 1 - (fslice f pos (min 4096 (r + 1))).length)
        (acc ++ fslice f pos (min 4096 (r + 1)))

/-- The verification read loop: read `remaining` bytes starting at `pos` in
4 KiB chunks, returning the bytes fed to the hasher. -/
def hashLoop (f : List Nat) (pos remaining : Nat) (acc : List Nat) : Option (List Nat) :=
  hashLoopF remaining f pos remaining acc

namespace DownloadFile

/-- The pieces built by `new_from_file`: every hash but the last yields a
piece of the nominal length; the final piece covers `total - offset`. -/
def mkPiecesAux : List (List Nat) → Nat → Nat → Nat → List DFPiece
  | [], _, _, _ => []
  | [h], off, _, total =>
    [{ unfilled := get_block_ranges 0 (total - off) BLOCK_SIZE
       all_blocks := get_block_ranges 0 (total - off) BLOCK_SIZE
       offset := off, length := total - off, hash := h }]
  | h :: h' :: hs, off, ps, total =>
    { unfilled := get_block_ranges 0 ps BLOCK_SIZE
      all_blocks := get_block_ranges 0 ps BLOCK_SIZE
      offset := off, length := ps, hash := h } :: mkPiecesAux (h' :: hs) (off + ps) ps total

/-- `DownloadFile::new_from_file`: pre-size the file, lay out the piece
descriptors.  `none` models the `expect` panic on an empty hash list. -/
def new_from_file (disk : List Nat) (hashes : List (List Nat)) (piece_size total_size : Nat) :
    Option DF :=
  match hashes with
  | [] => none
  | _ :: _ =>
    let pieces := mkPiecesAux hashes 0 piece_size total_size
    some { pieces := pieces
           bitfield := List.replicate pieces.length false
           file := setLen disk total_size
           downloaded := 0
           total_size := total_size }

/-- `DownloadFile::new`: truncate/create the file (so it starts empty). -/
def new (hashes : List (List Nat)) (piece_size total_size : Nat) : Option DF :=
  new_from_file [] hashes piece_size total_size

/-- `DownloadFile::new_seeding`: open the existing file, then mark every
piece verified — all bits set, all `unfilled` cleared, `downloaded` set to
the total size — without re-hashing. -/
def new_seeding (disk : List Nat) (hashes : List (List Nat)) (piece_size total_size : Nat) :
    Option DF :=
  (new_from_file disk hashes piece_size total_size).map fun df =>
    { df with
      downloaded := df.total_size
      bitfield := List.replicate df.bitfield.length true
      pieces := df.pieces.map fun p => { p with unfilled := [] } }

/-- `DownloadFile::is_complete`: all bitfield bits set. -/
def is_complete (s : DF) : Bool := s.bitfield.all (· = true)

/-- `DownloadFile::piece_is_complete(i)`: `Err` on an out-of-range index. -/
def piece_is_complete (s : DF) (i : Nat) : Except Unit Bool :=
  match s.pieces[i]? with
  | none => .error ()
  | some p => .ok (p.unfilled.isEmpty)

/-- `DownloadFile::get_unfilled(piece)`. -/
def get_unfilled (s : DF) (piece : Nat) : Option (List RangeN) :=
  (s.pieces[piece]?).map (·.unfilled)

/-- Modelled from the spec: `DownloadFile::get_blocks`, called by
`pick_blocks` in `strategy.rs`, is absent from `file.rs`; the spec says the
scheduler obtains "the current unfilled block sub-ranges from the File
store", which is exactly `get_unfilled`. -/
def get_blocks (s : DF) (piece : Nat) : Option (List RangeN) :=
  get_unfilled s piece

/-- `DownloadFile::left()`: `total_size.checked_sub(downloaded).expect(..)`;
`none` models the panic when the invariant `downloaded ≤ total_size` fails. -/
def left (s : DF) : Option Nat :=
  if s.downloaded ≤ s.total_size then some (s.total_size - s.downloaded) else none

/-- `DownloadFile::get_block(block)`.  The outer `Option` is `none` exactly
when the Rust code panics: `vec![0u8; end - start]` underflows whenever
`start > end` (that case passes the range check, which only tests
`end > piece.length`). -/
def get_block (s : DF) (block : BlockInfo) : Option (Except Unit (List Nat)) :=
  match s.pieces[block.piece]? with
  | none => some (.error ())
  | some piece =>
    if ¬piece.unfilled.isEmpty then some (.error ())
    else if piece.length < block.range.2 then some (.error ())
    else if block.range.2 < block.range.1 then none
    else
      let pos := piece.offset + block.range.1
      let n := block.range.2 - block.range.1
      if pos + n ≤ s.file.length then some (.ok (fslice s.file pos n))
      else some (.error ())

/-- `DownloadFile::process_block(block)`, parameterised by the digest
function `H` (the Rust code uses SHA-1).  The result pairs the `Result<()>`
with the post state; the outer `Option` is `none` for the panic/stuck points:
the verification read loop hitting a 0-byte read, and the
`bitfield.get_mut(piece).unwrap()` on a bitfield shorter than the piece
table. -/
def process_block (H : List Nat → List Nat) (s : DF) (b : Block) :
    Option (Except Unit Unit × DF) :=
  match s.pieces[b.piece]? with
  | none => some (.error (), s)
  | some piece =>
    let range : RangeN := (b.offset, b.offset + b.data.length)
    if piece.unfilled.isEmpty then some (.ok (), s)
    else
      match position piece.unfilled range with
      | none => some (.ok (), s)
      | some idx =>
        let f1 := writeAt s.file (range.1 + piece.offset) b.data
        let unf1 := swapRemove piece.unfilled idx
        if unf1.isEmpty then
          match hashLoop f1 piece.offset piece.length [] with
          | none => none
          | some bytes =>
            if H bytes = piece.hash then
              if b.piece < s.bitfield.length then
                some (.ok (),
                  { s with
                    pieces := s.pieces.set b.piece { piece with unfilled := unf1 }
                    bitfield := s.bitfield.set b.piece true
                    file := f1
                    downloaded := s.downloaded + piece.length })
              else none
            else
              some (.ok (),
                { s with
                  pieces := s.pieces.set b.piece { piece with unfilled := piece.all_blocks }
                  file := f1 })
        else
          some (.ok (),
            { s with
              pieces := s.pieces.set b.piece { piece with unfilled := unf1 }
              file := f1 })

end DownloadFile

/-! ## Store invariants -/

/-- Pieces laid out back-to-back from `off`, ending exactly at `total`. -/
def piecesChain : Nat → List DFPiece → Nat → Prop
  | off, [], total => off = total
  | off, p :: ps, total => p.offset = off ∧ piecesChain (off + p.length) ps total

/-- The sum of the lengths of the pieces whose bitfield bit is set. -/
def verifiedSum : List Bool → List DFPiece → Nat
  | b :: bs, p :: ps => (if b then p.length else 0) + verifiedSum bs ps
  | _, _ => 0

/-- Per-piece well-formedness: block ranges are non-empty sub-ranges of the
piece, the unfilled set is a subset of the block partition, and the
partition itself is non-empty. -/
def blocksWF (p : DFPiece) : Prop :=
  (∀ r ∈ p.all_blocks, r.1 < r.2 ∧ r.2 ≤ p.length) ∧
  (∀ r ∈ p.unfilled, r ∈ p.all_blocks) ∧
  p.all_blocks ≠ []

/-- The structural store invariant (holds for both download and seed mode).
It contains the two consistency properties of the spec — `unfilled(i)` empty
iff bit `i` set, and `downloaded = Σ length of verified pieces` — plus the
layout facts needed to preserve them. -/
def InvBase (s : DF) : Prop :=
  s.bitfield.length = s.pieces.length ∧
  s.file.length = s.total_size ∧
  piecesChain 0 s.pieces s.total_size ∧
  (∀ (i : Nat) (p : DFPiece), s.pieces[i]? = some p → blocksWF p) ∧
  (∀ (i : Nat) (p : DFPiece), s.pieces[i]? = some p → (p.unfilled = [] ↔ s.bitfield[i]? = some true)) ∧
  s.downloaded = verifiedSum s.bitfield s.pieces

/-- Hash integrity: the bytes of every complete piece hash to its declared
digest.  (Violated by seed-mode construction, which marks pieces complete
without hashing; hence kept separate from `InvBase`.) -/
def InvHash (H : List Nat → List Nat) (s : DF) : Prop :=
  ∀ (i : Nat) (p : DFPiece), s.pieces[i]? = some p → p.unfilled = [] →
    H (fslice s.file p.offset p.length) = p.hash

/-- Well-formed constructor parameters: at least one digest, a positive
nominal piece length, and a positive final-piece length (the layout the spec
prescribes for a torrent descriptor). -/
def WFparams (hashes : List (List Nat)) (piece_size total_size : Nat) : Prop :=
  hashes ≠ [] ∧ 0 < piece_size ∧ (hashes.length - 1) * piece_size < total_size

instance (hashes : List (List Nat)) (piece_size total_size : Nat) :
    Decidable (WFparams hashes piece_size total_size) := by
  unfold WFparams
  infer_instance

/-- States reachable by `new`/`new_from_file` followed by any sequence of
`process_block` calls (successful or not). -/
inductive Reach (H : List Nat → List Nat) : DF → Prop where
  | base : ∀ disk hashes ps total s, WFparams hashes ps total →
      DownloadFile.new_from_file disk hashes ps total = some s → Reach H s
  | step : ∀ s b r s', Reach H s →
      DownloadFile.process_block H s b = some (r, s') → Reach H s'

/-- States reachable by any constructor — `new`/`new_from_file` or the
seed-mode `new_seeding` — followed by any sequence of `process_block` calls. -/
inductive ReachS (H : List Nat → List Nat) : DF → Prop where
  | base : ∀ disk hashes ps total s, WFparams hashes ps total →
      DownloadFile.new_from_file disk hashes ps total = some s → ReachS H s
  | seed : ∀ disk hashes ps total s, WFparams hashes ps total →
      DownloadFile.new_seeding disk hashes ps total = some s → ReachS H s
  | step : ∀ s b r s', ReachS H s →
      DownloadFile.process_block H s b = some (r, s') → ReachS H s'

/-! ## The engine state and the scheduler (`strategy.rs`, `main.rs`) -/

/-- Socket addresses, abstracted to naturals. -/
abbrev Addr := Nat

/-- Timer tokens (`u64`). -/
abbrev Token := Nat

/-- `main.rs`: the per-peer record `PeerInfo` (the channel handle is not
part of the state model; sends are returned as an outbox). -/
structure PeerInfo where
  choked : Bool
  interested : Bool
  peer_choked : Bool
  peer_interested : Bool
  has : List Bool
  uploaded : Nat
  downloaded : Nat
  uploaded_recently : Nat
  downloaded_recently : Nat
  deriving DecidableEq

/-- Association-list lookup, modelling `HashMap::get`. -/
def lookupL {α β : Type} [DecidableEq α] : List (α × β) → α → Option β
  | [], _ => none
  | (a, b) :: rest, x => if a = x then some b else lookupL rest x

/-- Association-list update of an existing key, modelling `HashMap` entry
mutation through `get_mut`. -/
def setL {α β : Type} [DecidableEq α] : List (α × β) → α → β → List (α × β)
  | [], _, _ => []
  | (a, b) :: rest, x, q => if a = x then (x, q) :: rest else (a, b) :: setL rest x q

/-- `main.rs`: `MainState` (the timer channel handle is not modelled). -/
structure MainState where
  peers : List (Addr × PeerInfo)
  file : DF
  requested : List (Token × (BlockInfo × Addr))
  deriving DecidableEq

/-- `strategy.rs`: `const PIPELINE_DEPTH: usize = 3`. -/
def PIPELINE_DEPTH : Nat := 3

/-- `bitvec`'s `iter_ones`: indices of the set bits, ascending. -/
def iter_ones (has : List Bool) : List Nat :=
  (List.range has.length).filter (fun i => has.getD i false)

/-- `requested.iter().filter(|(_, (_, a))| *a == addr).count()`. -/
def countReqTo (requested : List (Token × (BlockInfo × Addr))) (addr : Addr) : Nat :=
  (requested.filter (fun e => decide (e.2.2 = addr))).length

/-- The inner `for range in ranges` loop of `pick_blocks`: emit blocks not
already outstanding and not already picked, stopping (with `break 'outer`,
the `Bool` component) once the peer's count reaches the pipeline depth. -/
def pickRanges (requested : List (Token × (BlockInfo × Addr))) (addr : Addr) (piece : Nat) :
    List RangeN → List (BlockInfo × Addr) → Nat → List (BlockInfo × Addr) × Nat × Bool
  | [], ret, count => (ret, count, false)
  | rg :: rest, ret, count =>
    if PIPELINE_DEPTH ≤ count then (ret, count, true)
    else if ∃ e ∈ requested, e.2.1 = BlockInfo.mk piece rg then
      pickRanges requested addr piece rest ret count
    else if ∃ e ∈ ret, e.1 = BlockInfo.mk piece rg then
      pickRanges requested addr piece rest ret count
    else pickRanges requested addr piece rest (ret ++ [(BlockInfo.mk piece rg, addr)]) (count + 1)

/-- The `while let Some(piece) = iter_ones.next()` loop of `pick_blocks`. -/
def pickPieces (file : DF) (requested : List (Token × (BlockInfo × Addr))) (addr : Addr) :
    List Nat → List (BlockInfo × Addr) → Nat → List (BlockInfo × Addr) × Nat
  | [], ret, count => (ret, count)
  | p :: rest, ret, count =>
    match DownloadFile.get_blocks file p with
    | none => pickPieces file requested addr rest ret count
    | some ranges =>
      match pickRanges requested addr p ranges ret count with
      | (ret1, c1, true) => (ret1, c1)
      | (ret1, c1, false) => pickPieces file requested addr rest ret1 c1

/-- One peer's turn in `pick_blocks`: skip if the peer chokes us, otherwise
request blocks up to the pipeline depth.  (The Rust code `unwrap`s the map
lookup; only map keys are ever iterated, so the `none` arm is unreachable.) -/
def pickPeer (file : DF) (requested : List (Token × (BlockInfo × Addr)))
    (peers : List (Addr × PeerInfo)) (ret : List (BlockInfo × Addr)) (addr : Addr) :
    List (BlockInfo × Addr) :=
  match lookupL peers addr with
  | none => ret
  | some pinfo =>
    if pinfo.peer_choked then ret
    else (pickPieces file requested addr (iter_ones pinfo.has) ret (countReqTo requested addr)).1

/-- `strategy.rs`: `pick_blocks`.  `order` is the shuffled key list of the
peer map (the shuffle is the only randomness; theorems quantify over it). -/
def pick_blocks (st : MainState) (order : List Addr) : List (BlockInfo × Addr) :=
  order.foldl (fun ret addr => pickPeer st.file st.requested st.peers ret addr) []

/-! ## Engine arms referenced by the claims (`main.rs`) -/

/-- Messages sent back to peers by the handlers modelled here. -/
inductive OutMsg where
  | pieceMsg (idx start : Nat) (data : List Nat)
  deriving DecidableEq

/-- The `Request(piece, offset, length)` arm of `handle_peer_response`:
refuse silently if we choke the peer, otherwise serve the block from the
File store and reply with `Piece`, updating the served-bytes statistics.
`bail!` on an unknown peer or a failed `get_block`.  (The `get_block` panic
arm is unreachable from the wire: a decoded `Request` always yields a range
with `start ≤ end`.) -/
def handle_request (st : MainState) (addr : Addr) (piece offset length : Nat) :
    Except Unit (MainState × List (Addr × OutMsg)) :=
  match lookupL st.peers addr with
  | none => .error ()
  | some pinfo =>
    if pinfo.choked then .ok (st, [])
    else
      match DownloadFile.get_block st.file (BlockInfo.mk piece (offset, offset + length)) with
      | some (.ok data) =>
        .ok ({ st with
                peers := setL st.peers addr
                  { pinfo with
                    downloaded := pinfo.downloaded + data.length
                    downloaded_recently := pinfo.downloaded_recently + data.length } },
             [(addr, .pieceMsg piece offset data)])
      | _ => .error ()

/-- The `Response::Peer` arm of the main loop for a `Request` message: a
handler error is only logged (`error!("Failed to handle peer response")`);
the engine keeps running with the state as the handler left it. -/
def engine_request_event (st : MainState) (addr : Addr) (piece offset length : Nat) :
    MainState × List (Addr × OutMsg) :=
  match handle_request st addr piece offset length with
  | .ok r => r
  | .error _ => (st, [])

/-- The non-tracker `Response::Timer(data)` arm of the main loop: if the
token is an outstanding request, remove that entry and evict the peer it
references; unknown tokens are ignored. -/
def engine_timer_event (st : MainState) (tok : Token) : MainState :=
  match lookupL st.requested tok with
  | some (_, addr) =>
    { st with
      requested := st.requested.filter (fun e => decide (e.1 ≠ tok))
      peers := st.peers.filter (fun e => decide (e.1 ≠ addr)) }
  | none => st

/-! ## Handshake (`peers.rs`) -/

/-- `"BitTorrent protocol".len()`. -/
def PROTO_IDENTIFIER_LEN : Nat := 19

/-- `peers.rs`: `HEADER_LEN = 49 + PROTO_IDENTIFIER.len()` (= 68 bytes). -/
def HEADER_LEN : Nat := 49 + PROTO_IDENTIFIER_LEN

/-- The receiving half of `do_handshake`: `read_exact` a 68-byte buffer —
an error only if fewer bytes are available — and return `Ok(())` with no
validation of the contents (`// TODO: some sanity checking, possibly?`). -/
def do_handshake_recv (received : List Nat) : Except Unit Unit :=
  if received.length < HEADER_LEN then .error () else .ok ()

/-- The info-hash field of a received handshake: bytes 28..48
(1 length byte + 19 protocol bytes + 8 reserved bytes). -/
def handshake_info_hash (received : List Nat) : List Nat := fslice received 28 20

/-! ## Timer service, modelled from the spec

The `timer.rs` in the tree is a stale version: it defines `TimerRequest` as
a plain struct and handles no cancellation, while its callers in `main.rs`
use `TimerRequest::Timer(TimerInfo { .. })` and `TimerRequest::Cancel(id)`.
The service below is modelled from the spec: a set of pending timers keyed
by token; `Schedule` records an expiration instant, `Cancel` removes the
matching timer if still pending, due timers fire and repeating timers
re-arm with their original duration. -/

/-- A pending timer. -/
structure TimerEntry where
  tok : Token
  expiration : Nat
  timer_len : Nat
  rep : Bool
  deriving DecidableEq

/-- Requests reaching the timer service, plus the passage of time. -/
inductive TimerEvent where
  | sched (timer_len : Nat) (tok : Token) (rep : Bool) (now : Nat)
  | cancel (tok : Token)
  | tick (now : Nat)
  deriving DecidableEq

/-- One step of the timer service; returns the new pending set and the
tokens delivered by this step. -/
def timerStep : List TimerEntry → TimerEvent → List TimerEntry × List Token
  | ts, .sched len tok rp now => (ts ++ [⟨tok, now + len, len, rp⟩], [])
  | ts, .cancel tok => (ts.filter (fun t => decide (t.tok ≠ tok)), [])
  | ts, .tick now =>
    (ts.filter (fun t => decide (¬t.expiration ≤ now)) ++
      ((ts.filter (fun t => decide (t.expiration ≤ now))).filter (·.rep)).map
        (fun t => { t with expiration := now + t.timer_len }),
     (ts.filter (fun t => decide (t.expiration ≤ now))).map (·.tok))

/-- Run the timer service over a sequence of events, collecting every
delivered token. -/
def timerRun : List TimerEntry → List TimerEvent → List TimerEntry × List Token
  | ts, [] => (ts, [])
  | ts, ev :: evs =>
    ((timerRun (timerStep ts ev).1 evs).1,
      (timerStep ts ev).2 ++ (timerRun (timerStep ts ev).1 evs).2)

/-- Whether an event schedules the given token. -/
def schedules (tok : Token) : TimerEvent → Prop
  | .sched _ t _ _ => t = tok
  | _ => False

/-! ## Concrete states used by witnesses and counterexamples -/

deriving instance DecidableEq for Except


/-- A digest function for witnesses: the identity on byte lists. -/
def exIdH : List Nat → List Nat := fun l => l

/-- A digest function that never matches a non-empty declared digest. -/
def exConstH : List Nat → List Nat := fun _ => []

/-- The store produced by `new` for a one-piece, one-byte torrent with
declared digest `[5]` (the state `new [[5]] 1 1` evaluates to). -/
def wS0 : DF :=
  { pieces := [{ unfilled := [(0, 1)], all_blocks := [(0, 1)], offset := 0, length := 1,
                 hash := [5] }]
    bitfield := [false]
    file := [0]
    downloaded := 0
    total_size := 1 }

/-- The single block of `wS0`'s torrent, carrying the byte `5`. -/
def wB0 : Block := { piece := 0, offset := 0, data := [5] }

/-- `wS0` after `process_block exIdH wS0 wB0`: complete and verified. -/
def wS1 : DF :=
  { pieces := [{ unfilled := [], all_blocks := [(0, 1)], offset := 0, length := 1,
                 hash := [5] }]
    bitfield := [true]
    file := [5]
    downloaded := 1
    total_size := 1 }

/-- A store whose single two-block piece has its first block filled and its
last block pending — the shape a `new`-constructed store reaches one block
before completing a piece longer than `BLOCK_SIZE` (scaled down to two
one-byte blocks so the state is small enough to evaluate). -/
def c5s1 : DF :=
  { pieces := [{ unfilled := [(1, 2)], all_blocks := [(0, 1), (1, 2)], offset := 0,
                 length := 2, hash := [0] }]
    bitfield := [false]
    file := [0, 0]
    downloaded := 0
    total_size := 2 }

/-- The final block of `c5s1`'s piece. -/
def c5b1 : Block := { piece := 0, offset := 1, data := [9] }

/-- `c5s1` after delivering `c5b1` under the never-matching digest function:
the piece completed, failed verification, and had its unfilled set restored
to the full two-block partition. -/
def c5s2 : Option DF :=
  (DownloadFile.process_block exConstH c5s1 c5b1).map fun r => r.2

/-- A peer record in its engine-initial state (unchoked by us, advertising
one piece). -/
def c7peer : PeerInfo :=
  { choked := false, interested := false, peer_choked := true, peer_interested := false
    has := [true], uploaded := 0, downloaded := 0
    uploaded_recently := 0, downloaded_recently := 0 }

/-- Engine state with one peer at address 7 and an incomplete store. -/
def c7st : MainState := { peers := [(7, c7peer)], file := wS0, requested := [] }

/-- Engine state with two outstanding requests to the same peer 7. -/
def c9st : MainState :=
  { peers := [(7, c7peer)]
    file := wS0
    requested := [(1, ({ piece := 0, range := (0, 1) }, 7)),
                  (2, ({ piece := 0, range := (1, 2) }, 7))] }

/-- A seed-mode store over a 4-byte file (every piece complete). -/
def c10s : Option DF := DownloadFile.new_seeding (List.replicate 4 0) [[0]] 4 4

/-- A `BlockInfo` whose range runs backwards (`start > end`): its length
computation `end - start` underflows in `get_block`. -/
def c10bad : BlockInfo := { piece := 0, range := (3, 1) }

/-- A 68-byte handshake whose info-hash field is all zeroes. -/
def c6hs : List Nat := List.replicate 68 0

/-- A torrent info-hash that differs from `c6hs`'s info-hash field in its
first byte. -/
def c6myhash : List Nat := 1 :: List.replicate 19 0

/-- A scheduler state: peer 1 does not choke us and advertises the only
piece of an otherwise fresh one-byte torrent. -/
def c3st : MainState :=
  { peers := [(1, { c7peer with peer_choked := false })], file := wS0, requested := [] }

/-- Anchor: the repository's own unit test `get_block_ranges_test`. -/
theorem get_block_ranges_test :
    get_block_ranges 0 33 10 = [(0, 10), (10, 20), (20, 30), (30, 33)] := by decide

/-- Anchor: the repository's own unit test `get_block_ranges_test_current_is_end`. -/
theorem get_block_ranges_empty_test : get_block_ranges 0 0 10 = [] := by decide

/-! ## Helper lemmas about the list primitives -/

theorem position_some : ∀ {l : List RangeN} {r : RangeN} {i : Nat},
    position l r = some i → l[i]? = some r := by
  intro l
  induction l with
  | nil => intro r i h; simp [position] at h
  | cons x xs ih =>
    intro r i h
    by_cases hx : x = r
    · simp [position, hx] at h
      subst h
      simp [hx]
    · simp [position, hx] at h
      obtain ⟨j, hj, hi⟩ := h
      subst hi
      simpa using ih hj

theorem position_none : ∀ {l : List RangeN} {r : RangeN},
    position l r = none → r ∉ l := by
  intro l
  induction l with
  | nil => intro r _; simp
  | cons x xs ih =>
    intro r h
    by_cases hx : x = r
    · simp [position, hx] at h
    · simp [position, hx] at h
      simp [ih h, Ne.symm hx]

theorem position_mem {l : List RangeN} {r : RangeN} {i : Nat}
    (h : position l r = some i) : r ∈ l :=
  List.getElem?_mem (position_some h)

theorem position_lt {l : List RangeN} {r : RangeN} {i : Nat}
    (h : position l r = some i) : i < l.length := by
  have := position_some h
  rw [List.getElem?_eq_some] at this
  exact this.1

theorem swapRemove_length {l : List RangeN} (i : Nat) (h : l ≠ []) :
    (swapRemove l i).length = l.length - 1 := by
  unfold swapRemove
  cases hl : l.getLast? with
  | none => exact absurd (List.getLast?_eq_none_iff.mp hl) h
  | some last => simp [List.length_dropLast, List.length_set]

theorem swapRemove_subset {l : List RangeN} {i : Nat} :
    ∀ x ∈ swapRemove l i, x ∈ l := by
  intro x hx
  unfold swapRemove at hx
  cases hl : l.getLast? with
  | none => simp [hl] at hx
  | some last =>
    rw [hl] at hx
    have hx' : x ∈ l.set i last := (List.dropLast_sublist _).subset hx
    rcases List.mem_or_eq_of_mem_set hx' with h | h
    · exact h
    · subst h
      obtain ⟨ys, hys⟩ := List.getLast?_eq_some_iff.mp hl
      subst hys; simp

theorem length_fslice (f : List Nat) (a n : Nat) :
    (fslice f a n).length = min n (f.length - a) := by
  simp [fslice]

theorem fslice_getElem? (f : List Nat) (a n j : Nat) :
    (fslice f a n)[j]? = if j < n then f[a + j]? else none := by
  simp [fslice, List.getElem?_take, List.getElem?_drop]

theorem fslice_append (f : List Nat) (a m n : Nat) :
    fslice f a m ++ fslice f (a + m) n = fslice f a (m + n) := by
  unfold fslice
  rw [← List.drop_drop m a f, List.take_add]

theorem fslice_zero (f : List Nat) (a : Nat) : fslice f a 0 = [] := by
  simp [fslice]

theorem length_setLen (f : List Nat) (n : Nat) : (setLen f n).length = n := by
  simp [setLen]
  omega

theorem length_writeAt {f : List Nat} {pos : Nat} {d : List Nat}
    (h : pos + d.length ≤ f.length) : (writeAt f pos d).length = f.length := by
  unfold writeAt
  rw [if_pos (by omega)]
  simp
  omega

theorem writeAt_getElem?_lt {f : List Nat} {pos : Nat} {d : List Nat} {k : Nat}
    (h : pos + d.length ≤ f.length) (hk : k < pos) : (writeAt f pos d)[k]? = f[k]? := by
  have hpl : (List.take pos f).length = pos := by simp; omega
  unfold writeAt
  rw [if_pos (by omega), List.append_assoc, List.getElem?_append, hpl, if_pos hk,
    List.getElem?_take, if_pos hk]

theorem writeAt_getElem?_ge {f : List Nat} {pos : Nat} {d : List Nat} {k : Nat}
    (h : pos + d.length ≤ f.length) (hk : pos + d.length ≤ k) :
    (writeAt f pos d)[k]? = f[k]? := by
  have hpl : (List.take pos f).length = pos := by simp; omega
  unfold writeAt
  rw [if_pos (by omega), List.append_assoc,
    List.getElem?_append_right (by rw [hpl]; omega), hpl,
    List.getElem?_append_right (by omega), List.getElem?_drop]
  congr 1
  omega

theorem fslice_writeAt_left {f : List Nat} {pos : Nat} {d : List Nat} {a n : Nat}
    (h : pos + d.length ≤ f.length) (hd : a + n ≤ pos) :
    fslice (writeAt f pos d) a n = fslice f a n := by
  apply List.ext_getElem?
  intro j
  rw [fslice_getElem?, fslice_getElem?]
  by_cases hj : j < n
  · rw [if_pos hj, if_pos hj, writeAt_getElem?_lt h (by omega)]
  · rw [if_neg hj, if_neg hj]

theorem fslice_writeAt_right {f : List Nat} {pos : Nat} {d : List Nat} {a n : Nat}
    (h : pos + d.length ≤ f.length) (hd : pos + d.length ≤ a) :
    fslice (writeAt f pos d) a n = fslice f a n := by
  apply List.ext_getElem?
  intro j
  rw [fslice_getElem?, fslice_getElem?]
  by_cases hj : j < n
  · rw [if_pos hj, if_pos hj, writeAt_getElem?_ge h (by omega)]
  · rw [if_neg hj, if_neg hj]

theorem hashLoopF_spec : ∀ (fuel : Nat) (f : List Nat) (pos r : Nat) (acc : List Nat),
    r ≤ fuel → pos + r ≤ f.length →
    hashLoopF fuel f pos r acc = some (acc ++ fslice f pos r) := by
  intro fuel
  induction fuel with
  | zero =>
    intro f pos r acc hr hlen
    cases r with
    | zero => simp [hashLoopF, fslice_zero]
    | succ r => omega
  | succ fuel ih =>
    intro f pos r acc hr hlen
    cases r with
    | zero => simp [hashLoopF, fslice_zero]
    | succ r =>
      have hc : (fslice f pos (min 4096 (r + 1))).length = min 4096 (r + 1) := by
        rw [length_fslice]; omega
      rw [hashLoopF, if_neg (by rw [hc]; omega), hc]
      rw [ih f (pos + min 4096 (r + 1)) (r + 1 - min 4096 (r + 1)) _ (by omega) (by omega)]
      rw [List.append_assoc, fslice_append]
      have hmin : min 4096 (r + 1) + (r + 1 - min 4096 (r + 1)) = r + 1 := by omega
      rw [hmin]

theorem hashLoop_spec {f : List Nat} {pos r : Nat}
    (h : pos + r ≤ f.length) : hashLoop f pos r [] = some (fslice f pos r) := by
  unfold hashLoop
  rw [hashLoopF_spec r f pos r [] (Nat.le_refl r) h]
  simp

/-! ## Layout-chain and verified-sum lemmas -/

theorem chain_off_le_total : ∀ {ps : List DFPiece} {off total : Nat},
    piecesChain off ps total → off ≤ total := by
  intro ps
  induction ps with
  | nil => intro off total h; exact Nat.le_of_eq h
  | cons q qs ih =>
    intro off total h
    have := ih h.2
    omega

theorem chain_get : ∀ {ps : List DFPiece} {off total i : Nat} {p : DFPiece},
    piecesChain off ps total → ps[i]? = some p →
    off ≤ p.offset ∧ p.offset + p.length ≤ total := by
  intro ps
  induction ps with
  | nil => intro off total i p _ hp; simp at hp
  | cons q qs ih =>
    intro off total i p hc hp
    cases i with
    | zero =>
      simp at hp
      subst hp
      have h1 := hc.1
      have := chain_off_le_total hc.2
      omega
    | succ i =>
      simp at hp
      have := ih hc.2 hp
      omega

theorem chain_disjoint : ∀ {ps : List DFPiece} {off total i j : Nat} {pi pj : DFPiece},
    piecesChain off ps total → i < j → ps[i]? = some pi → ps[j]? = some pj →
    pi.offset + pi.length ≤ pj.offset := by
  intro ps
  induction ps with
  | nil => intro off total i j pi pj _ _ hi; simp at hi
  | cons q qs ih =>
    intro off total i j pi pj hc hij hi hj
    cases i with
    | zero =>
      simp at hi
      subst hi
      cases j with
      | zero => omega
      | succ j =>
        simp at hj
        have h1 := hc.1
        have := chain_get hc.2 hj
        omega
    | succ i =>
      cases j with
      | zero => omega
      | succ j =>
        simp at hi hj
        exact ih hc.2 (by omega) hi hj

theorem chain_set : ∀ {ps : List DFPiece} {off total i : Nat} {p p' : DFPiece},
    piecesChain off ps total → ps[i]? = some p →
    p'.offset = p.offset → p'.length = p.length →
    piecesChain off (ps.set i p') total := by
  intro ps
  induction ps with
  | nil => intro off total i p p' hc hp; simp at hp
  | cons q qs ih =>
    intro off total i p p' hc hp ho hl
    cases i with
    | zero =>
      simp at hp
      subst hp
      simp only [List.set_cons_zero]
      exact ⟨by rw [ho, hc.1], by rw [hl]; exact hc.2⟩
    | succ i =>
      simp at hp
      simp only [List.set_cons_succ]
      exact ⟨hc.1, ih hc.2 hp ho hl⟩

theorem chain_map_clear : ∀ {ps : List DFPiece} {off total : Nat},
    piecesChain off ps total →
    piecesChain off (ps.map fun p => { p with unfilled := ([] : List RangeN) }) total := by
  intro ps
  induction ps with
  | nil => intro off total h; exact h
  | cons q qs ih => intro off total h; exact ⟨h.1, ih h.2⟩

theorem chain_sum_true : ∀ {ps : List DFPiece} {off total : Nat},
    piecesChain off ps total →
    verifiedSum (List.replicate ps.length true) ps = total - off := by
  intro ps
  induction ps with
  | nil =>
    intro off total h
    have h' : off = total := h
    simp [verifiedSum]
    omega
  | cons q qs ih =>
    intro off total h
    have hrest := ih h.2
    have hle := chain_off_le_total h.2
    have hstep : verifiedSum (List.replicate (q :: qs).length true) (q :: qs)
        = q.length + verifiedSum (List.replicate qs.length true) qs := by
      simp [List.replicate_succ, verifiedSum]
    rw [hstep, hrest]
    omega

theorem verifiedSum_replicate_false : ∀ (ps : List DFPiece) (n : Nat),
    verifiedSum (List.replicate n false) ps = 0 := by
  intro ps
  induction ps with
  | nil => intro n; cases n <;> simp [verifiedSum, List.replicate]
  | cons q qs ih =>
    intro n
    cases n with
    | zero => simp [verifiedSum, List.replicate]
    | succ n => simp [verifiedSum, List.replicate, ih]

theorem verifiedSum_set_false : ∀ {bs : List Bool} {ps : List DFPiece} {i : Nat} {p' : DFPiece},
    bs[i]? = some false → verifiedSum bs (ps.set i p') = verifiedSum bs ps := by
  intro bs
  induction bs with
  | nil => intro ps i p' h; simp at h
  | cons b bs ih =>
    intro ps i p' h
    cases ps with
    | nil => simp
    | cons q qs =>
      cases i with
      | zero => simp at h; subst h; simp [verifiedSum]
      | succ i => simp at h; simp [verifiedSum, ih h]

theorem verifiedSum_set_true :
    ∀ {bs : List Bool} {ps : List DFPiece} {i : Nat} (p p' : DFPiece),
    bs[i]? = some false → ps[i]? = some p → p'.length = p.length →
    verifiedSum (bs.set i true) (ps.set i p') = verifiedSum bs ps + p.length := by
  intro bs
  induction bs with
  | nil => intro ps i p p' h; simp at h
  | cons b bs ih =>
    intro ps i p p' hb hp hl
    cases ps with
    | nil => simp at hp
    | cons q qs =>
      cases i with
      | zero =>
        simp at hb hp
        subst hb; subst hp
        simp [verifiedSum, hl]
        omega
      | succ i =>
        simp at hb hp
        simp [verifiedSum, ih p p' hb hp hl]
        omega

/-! ## Block-partition lemmas -/

theorem gbr_fuel_mem : ∀ (fuel start e size : Nat), 0 < size →
    ∀ r ∈ get_block_ranges_fuel fuel start e size, start ≤ r.1 ∧ r.1 < r.2 ∧ r.2 ≤ e := by
  intro fuel
  induction fuel with
  | zero =>
    intro start e size _ r hr
    rw [get_block_ranges_fuel] at hr
    split at hr
    · simp at hr; subst hr; simp; omega
    · simp at hr
  | succ fuel ih =>
    intro start e size hs r hr
    rw [get_block_ranges_fuel] at hr
    split at hr
    · rcases List.mem_cons.mp hr with h | h
      · subst h; simp; omega
      · have := ih (start + size) e size hs r h
        omega
    · split at hr
      · simp at hr; subst hr; simp; omega
      · simp at hr

theorem gbr_mem {e size : Nat} (hs : 0 < size) :
    ∀ r ∈ get_block_ranges 0 e size, r.1 < r.2 ∧ r.2 ≤ e := by
  intro r hr
  have := gbr_fuel_mem (e - 0) 0 e size hs r hr
  omega

theorem gbr_fuel_ne_nil : ∀ (fuel start e size : Nat), start < e →
    get_block_ranges_fuel fuel start e size ≠ [] := by
  intro fuel start e size h
  cases fuel with
  | zero => rw [get_block_ranges_fuel]; simp [h]
  | succ fuel =>
    rw [get_block_ranges_fuel]
    split
    · simp
    · simp [h]

theorem gbr_ne_nil {e size : Nat} (h : 0 < e) : get_block_ranges 0 e size ≠ [] :=
  gbr_fuel_ne_nil (e - 0) 0 e size h

/-! ## Constructor layout lemmas -/

theorem mk_arith (n off ps total : Nat)
    (hlt : off + (n + 1) * ps < total) : off + ps + n * ps < total := by
  rw [Nat.succ_mul] at hlt
  omega

theorem mk_length : ∀ (hs : List (List Nat)) (off ps total : Nat),
    (DownloadFile.mkPiecesAux hs off ps total).length = hs.length := by
  intro hs
  induction hs with
  | nil => intro off ps total; rfl
  | cons h tl ih =>
    intro off ps total
    cases tl with
    | nil => rfl
    | cons h' tl' =>
      rw [DownloadFile.mkPiecesAux]
      simp [ih]

theorem mk_chain : ∀ (hs : List (List Nat)) (off ps total : Nat), hs ≠ [] →
    off + (hs.length - 1) * ps < total →
    piecesChain off (DownloadFile.mkPiecesAux hs off ps total) total := by
  intro hs
  induction hs with
  | nil => intro off ps total hne; exact absurd rfl hne
  | cons h tl ih =>
    intro off ps total _ hlt
    cases tl with
    | nil =>
      rw [DownloadFile.mkPiecesAux]
      refine ⟨rfl, ?_⟩
      show off + (total - off) = total
      simp at hlt
      omega
    | cons h' tl' =>
      rw [DownloadFile.mkPiecesAux]
      refine ⟨rfl, ?_⟩
      apply ih (off + ps) ps total (by simp)
      simp at hlt ⊢
      exact mk_arith tl'.length off ps total hlt

theorem mk_blocks : ∀ (hs : List (List Nat)) (off ps total : Nat), 0 < ps →
    off + (hs.length - 1) * ps < total →
    ∀ (i : Nat) (p : DFPiece), (DownloadFile.mkPiecesAux hs off ps total)[i]? = some p →
    p.unfilled = p.all_blocks ∧ p.all_blocks = get_block_ranges 0 p.length BLOCK_SIZE ∧
      0 < p.length := by
  intro hs
  induction hs with
  | nil => intro off ps total _ _ i p hp; rw [DownloadFile.mkPiecesAux] at hp; simp at hp
  | cons h tl ih =>
    intro off ps total hps hlt i p hp
    cases tl with
    | nil =>
      rw [DownloadFile.mkPiecesAux] at hp
      cases i with
      | zero =>
        simp at hp
        subst hp
        refine ⟨rfl, rfl, ?_⟩
        show 0 < total - off
        simp at hlt
        omega
      | succ i => simp at hp
    | cons h' tl' =>
      rw [DownloadFile.mkPiecesAux] at hp
      cases i with
      | zero =>
        simp at hp
        subst hp
        exact ⟨rfl, rfl, hps⟩
      | succ i =>
        simp at hp
        apply ih (off + ps) ps total hps ?_ i p hp
        simp at hlt ⊢
        exact mk_arith tl'.length off ps total hlt

theorem BLOCK_SIZE_pos : 0 < BLOCK_SIZE := by decide

/-! ## Invariant establishment -/

theorem InvBase_new {disk : List Nat} {hashes : List (List Nat)} {ps total : Nat} {s : DF}
    (hw : WFparams hashes ps total)
    (h : DownloadFile.new_from_file disk hashes ps total = some s) : InvBase s := by
  obtain ⟨hne, _hps, hlt⟩ := hw
  cases hashes with
  | nil => exact absurd rfl hne
  | cons h0 tl =>
    rw [DownloadFile.new_from_file] at h
    simp at h
    subst h
    refine ⟨by simp, length_setLen disk total, ?_, ?_, ?_, ?_⟩
    · exact mk_chain (h0 :: tl) 0 ps total (by simp) (by simpa using hlt)
    · intro i p hp
      obtain ⟨hu, hab, hl⟩ := mk_blocks (h0 :: tl) 0 ps total _hps (by simpa using hlt) i p hp
      refine ⟨?_, ?_, ?_⟩
      · intro r hr; rw [hab] at hr; exact gbr_mem BLOCK_SIZE_pos r hr
      · intro r hr; rw [hu] at hr; exact hr
      · rw [hab]; exact gbr_ne_nil hl
    · intro i p hp
      obtain ⟨hu, hab, hl⟩ := mk_blocks (h0 :: tl) 0 ps total _hps (by simpa using hlt) i p hp
      have hi : i < (DownloadFile.mkPiecesAux (h0 :: tl) 0 ps total).length :=
        (List.getElem?_eq_some.mp hp).1
      constructor
      · intro he
        exfalso
        rw [hu, hab] at he
        exact gbr_ne_nil hl he
      · intro hbit
        rw [List.getElem?_replicate, if_pos hi] at hbit
        exact absurd (Option.some.inj hbit) (by simp)
    · exact (verifiedSum_replicate_false _ _).symm

theorem InvHash_new (H : List Nat → List Nat) {disk : List Nat} {hashes : List (List Nat)}
    {ps total : Nat} {s : DF} (hw : WFparams hashes ps total)
    (h : DownloadFile.new_from_file disk hashes ps total = some s) : InvHash H s := by
  obtain ⟨hne, hps, hlt⟩ := hw
  cases hashes with
  | nil => exact absurd rfl hne
  | cons h0 tl =>
    rw [DownloadFile.new_from_file] at h
    simp at h
    subst h
    intro i p hp he
    obtain ⟨hu, hab, hl⟩ := mk_blocks (h0 :: tl) 0 ps total hps (by simpa using hlt) i p hp
    exfalso
    rw [hu, hab] at he
    exact gbr_ne_nil hl he

theorem InvBase_seed {disk : List Nat} {hashes : List (List Nat)} {ps total : Nat} {s : DF}
    (hw : WFparams hashes ps total)
    (h : DownloadFile.new_seeding disk hashes ps total = some s) : InvBase s := by
  obtain ⟨hne, hps, hlt⟩ := hw
  cases hashes with
  | nil => exact absurd rfl hne
  | cons h0 tl =>
    rw [DownloadFile.new_seeding, DownloadFile.new_from_file] at h
    simp at h
    subst h
    have hchain := chain_map_clear (mk_chain (h0 :: tl) 0 ps total (by simp) (by simpa using hlt))
    refine ⟨by simp, length_setLen disk total, hchain, ?_, ?_, ?_⟩
    · intro i p hp
      rw [List.getElem?_map] at hp
      cases hq : (DownloadFile.mkPiecesAux (h0 :: tl) 0 ps total)[i]? with
      | none => rw [hq] at hp; simp at hp
      | some q =>
        rw [hq] at hp
        simp at hp
        obtain ⟨hu, hab, hl⟩ := mk_blocks (h0 :: tl) 0 ps total hps (by simpa using hlt) i q hq
        subst hp
        refine ⟨?_, ?_, ?_⟩
        · intro r hr
          rw [hab] at hr
          exact gbr_mem BLOCK_SIZE_pos r hr
        · intro r hr; simp at hr
        · show q.all_blocks ≠ []
          rw [hab]; exact gbr_ne_nil hl
    · intro i p hp
      have hi : i < (DownloadFile.mkPiecesAux (h0 :: tl) 0 ps total).length := by
        have := (List.getElem?_eq_some.mp hp).1
        simpa using this
      rw [List.getElem?_map] at hp
      cases hq : (DownloadFile.mkPiecesAux (h0 :: tl) 0 ps total)[i]? with
      | none => rw [hq] at hp; simp at hp
      | some q =>
        rw [hq] at hp
        simp at hp
        subst hp
        simp [List.getElem?_replicate, hi]
    · dsimp only
      have := chain_sum_true hchain
      rw [List.length_map] at this
      rw [this]
      omega

theorem Complete_new_seeding {disk : List Nat} {hashes : List (List Nat)} {ps total : Nat}
    {s : DF} (h : DownloadFile.new_seeding disk hashes ps total = some s) :
    DownloadFile.is_complete s = true := by
  cases hashes with
  | nil => rw [DownloadFile.new_seeding, DownloadFile.new_from_file] at h; simp at h
  | cons h0 tl =>
    rw [DownloadFile.new_seeding, DownloadFile.new_from_file] at h
    simp at h
    subst h
    simp [DownloadFile.is_complete, List.all_eq_true]

/-! ## `process_block` branch characterisation -/

theorem process_block_out_of_range {H : List Nat → List Nat} {s : DF} {b : Block}
    (h : s.pieces[b.piece]? = none) :
    DownloadFile.process_block H s b = some (.error (), s) := by
  rw [DownloadFile.process_block, h]

theorem process_block_complete {H : List Nat → List Nat} {s : DF} {b : Block} {piece : DFPiece}
    (hp : s.pieces[b.piece]? = some piece) (hc : piece.unfilled.isEmpty) :
    DownloadFile.process_block H s b = some (.ok (), s) := by
  rw [DownloadFile.process_block, hp]
  simp [hc]

theorem process_block_nomatch {H : List Nat → List Nat} {s : DF} {b : Block} {piece : DFPiece}
    (hp : s.pieces[b.piece]? = some piece) (hc : ¬piece.unfilled.isEmpty)
    (hpos : position piece.unfilled (b.offset, b.offset + b.data.length) = none) :
    DownloadFile.process_block H s b = some (.ok (), s) := by
  rw [DownloadFile.process_block, hp]
  simp [hc, hpos]

theorem process_block_found {H : List Nat → List Nat} {s : DF} {b : Block} {piece : DFPiece}
    {idx : Nat}
    (hp : s.pieces[b.piece]? = some piece) (hc : ¬piece.unfilled.isEmpty)
    (hpos : position piece.unfilled (b.offset, b.offset + b.data.length) = some idx) :
    DownloadFile.process_block H s b =
      (if (swapRemove piece.unfilled idx).isEmpty then
        match hashLoop (writeAt s.file (b.offset + piece.offset) b.data)
            piece.offset piece.length [] with
        | none => none
        | some bytes =>
          if H bytes = piece.hash then
            if b.piece < s.bitfield.length then
              some (.ok (),
                { s with
                  pieces := s.pieces.set b.piece
                    { piece with unfilled := swapRemove piece.unfilled idx }
                  bitfield := s.bitfield.set b.piece true
                  file := writeAt s.file (b.offset + piece.offset) b.data
                  downloaded := s.downloaded + piece.length })
            else none
          else
            some (.ok (),
              { s with
                pieces := s.pieces.set b.piece { piece with unfilled := piece.all_blocks }
                file := writeAt s.file (b.offset + piece.offset) b.data })
      else
        some (.ok (),
          { s with
            pieces := s.pieces.set b.piece
              { piece with unfilled := swapRemove piece.unfilled idx }
            file := writeAt s.file (b.offset + piece.offset) b.data })) := by
  rw [DownloadFile.process_block, hp]
  simp [hc, hpos]

theorem process_block_cases {H : List Nat → List Nat} {s : DF} {b : Block}
    {r : Except Unit Unit} {s' : DF}
    (h : DownloadFile.process_block H s b = some (r, s')) :
    s' = s ∨
    ∃ piece idx, s.pieces[b.piece]? = some piece ∧
      piece.unfilled ≠ [] ∧
      position piece.unfilled (b.offset, b.offset + b.data.length) = some idx ∧
      r = Except.ok () ∧
      ((swapRemove piece.unfilled idx ≠ [] ∧
         s' = { s with
                pieces := s.pieces.set b.piece
                  { piece with unfilled := swapRemove piece.unfilled idx }
                file := writeAt s.file (b.offset + piece.offset) b.data }) ∨
       (swapRemove piece.unfilled idx = [] ∧
         ∃ bytes, hashLoop (writeAt s.file (b.offset + piece.offset) b.data)
             piece.offset piece.length [] = some bytes ∧
           ((H bytes = piece.hash ∧ b.piece < s.bitfield.length ∧
              s' = { s with
                     pieces := s.pieces.set b.piece
                       { piece with unfilled := swapRemove piece.unfilled idx }
                     bitfield := s.bitfield.set b.piece true
                     file := writeAt s.file (b.offset + piece.offset) b.data
                     downloaded := s.downloaded + piece.length }) ∨
            (H bytes ≠ piece.hash ∧
              s' = { s with
                     pieces := s.pieces.set b.piece
                       { piece with unfilled := piece.all_blocks }
                     file := writeAt s.file (b.offset + piece.offset) b.data })))) := by
  cases hp : s.pieces[b.piece]? with
  | none =>
    rw [process_block_out_of_range (H := H) hp] at h
    injection h with h'
    injection h' with _ hb
    exact Or.inl hb.symm
  | some piece =>
    by_cases hemp : piece.unfilled.isEmpty
    · rw [process_block_complete hp hemp] at h
      injection h with h'
      injection h' with _ hb
      exact Or.inl hb.symm
    · have hne : piece.unfilled ≠ [] := fun hl => hemp (List.isEmpty_iff.mpr hl)
      cases hpos : position piece.unfilled (b.offset, b.offset + b.data.length) with
      | none =>
        rw [process_block_nomatch hp hemp hpos] at h
        injection h with h'
        injection h' with _ hb
        exact Or.inl hb.symm
      | some idx =>
        rw [process_block_found hp hemp hpos] at h
        by_cases hcomp : (swapRemove piece.unfilled idx).isEmpty
        · rw [if_pos hcomp] at h
          have hceq : swapRemove piece.unfilled idx = [] := List.isEmpty_iff.mp hcomp
          cases hhash : hashLoop (writeAt s.file (b.offset + piece.offset) b.data)
              piece.offset piece.length [] with
          | none => rw [hhash] at h; simp at h
          | some bytes =>
            rw [hhash] at h
            dsimp only at h
            by_cases hH : H bytes = piece.hash
            · rw [if_pos hH] at h
              by_cases hbl : b.piece < s.bitfield.length
              · rw [if_pos hbl] at h
                injection h with h'
                injection h' with ha hb
                exact Or.inr ⟨piece, idx, rfl, hne, hpos, ha.symm,
                  Or.inr ⟨hceq, bytes, hhash, Or.inl ⟨hH, hbl, hb.symm⟩⟩⟩
              · rw [if_neg hbl] at h
                simp at h
            · rw [if_neg hH] at h
              injection h with h'
              injection h' with ha hb
              exact Or.inr ⟨piece, idx, rfl, hne, hpos, ha.symm,
                Or.inr ⟨hceq, bytes, hhash, Or.inr ⟨hH, hb.symm⟩⟩⟩
        · rw [if_neg hcomp] at h
          have hcne : swapRemove piece.unfilled idx ≠ [] :=
            fun hl => hcomp (List.isEmpty_iff.mpr hl)
          injection h with h'
          injection h' with ha hb
          exact Or.inr ⟨piece, idx, rfl, hne, hpos, ha.symm, Or.inl ⟨hcne, hb.symm⟩⟩

/-! ## Invariant preservation -/

theorem bit_false_of_incomplete {s : DF} {j : Nat} {piece : DFPiece}
    (hlen : s.bitfield.length = s.pieces.length)
    (hiff : ∀ (i : Nat) (p : DFPiece), s.pieces[i]? = some p →
      (p.unfilled = [] ↔ s.bitfield[i]? = some true))
    (hp : s.pieces[j]? = some piece) (hne : piece.unfilled ≠ []) :
    s.bitfield[j]? = some false := by
  have hw : j < s.pieces.length := (List.getElem?_eq_some.mp hp).1
  have hblt : j < s.bitfield.length := by omega
  rcases hbit : s.bitfield[j]? with _ | bit
  · rw [List.getElem?_eq_getElem hblt] at hbit
    simp at hbit
  · cases bit with
    | false => rfl
    | true => exact absurd ((hiff j piece hp).mpr hbit) hne

theorem InvBase_write_aux {s : DF} {j : Nat} {piece : DFPiece} {u : List RangeN} {f1 : List Nat}
    (hI : InvBase s) (hp : s.pieces[j]? = some piece) (hne : piece.unfilled ≠ [])
    (hu : ∀ r ∈ u, r ∈ piece.all_blocks) (hune : u ≠ [])
    (hflen : f1.length = s.file.length) :
    InvBase { s with pieces := s.pieces.set j { piece with unfilled := u }, file := f1 } := by
  obtain ⟨hlen, hfile, hchain, hblocks, hiff, hsum⟩ := hI
  have hw : j < s.pieces.length := (List.getElem?_eq_some.mp hp).1
  have hbitp : s.bitfield[j]? = some false := bit_false_of_incomplete hlen hiff hp hne
  refine ⟨by simpa using hlen, by simpa using hflen.trans hfile, ?_, ?_, ?_, ?_⟩
  · exact chain_set hchain hp rfl rfl
  · intro i p hip
    by_cases hij : j = i
    · subst hij
      rw [List.getElem?_set_self hw] at hip
      have hpe := Option.some.inj hip
      subst hpe
      exact ⟨(hblocks j piece hp).1, fun r hr => hu r hr, (hblocks j piece hp).2.2⟩
    · rw [List.getElem?_set_ne hij] at hip
      exact hblocks i p hip
  · intro i p hip
    by_cases hij : j = i
    · subst hij
      rw [List.getElem?_set_self hw] at hip
      have hpe := Option.some.inj hip
      subst hpe
      dsimp only
      constructor
      · intro hueq; exact absurd hueq hune
      · intro hb
        rw [hbitp] at hb
        exact absurd (Option.some.inj hb) (by simp)
    · rw [List.getElem?_set_ne hij] at hip
      exact hiff i p hip
  · dsimp only
    rw [verifiedSum_set_false hbitp]
    exact hsum

theorem InvBase_complete_aux {s : DF} {j : Nat} {piece : DFPiece} {f1 : List Nat}
    (hI : InvBase s) (hp : s.pieces[j]? = some piece) (hne : piece.unfilled ≠ [])
    (hflen : f1.length = s.file.length) :
    InvBase { s with
              pieces := s.pieces.set j { piece with unfilled := [] }
              bitfield := s.bitfield.set j true
              file := f1
              downloaded := s.downloaded + piece.length } := by
  obtain ⟨hlen, hfile, hchain, hblocks, hiff, hsum⟩ := hI
  have hw : j < s.pieces.length := (List.getElem?_eq_some.mp hp).1
  have hblt : j < s.bitfield.length := by omega
  have hbitp : s.bitfield[j]? = some false := bit_false_of_incomplete hlen hiff hp hne
  refine ⟨by simpa using hlen, by simpa using hflen.trans hfile, ?_, ?_, ?_, ?_⟩
  · exact chain_set hchain hp rfl rfl
  · intro i p hip
    by_cases hij : j = i
    · subst hij
      rw [List.getElem?_set_self hw] at hip
      have hpe := Option.some.inj hip
      subst hpe
      exact ⟨(hblocks j piece hp).1, by simp, (hblocks j piece hp).2.2⟩
    · rw [List.getElem?_set_ne hij] at hip
      exact hblocks i p hip
  · intro i p hip
    by_cases hij : j = i
    · subst hij
      rw [List.getElem?_set_self hw] at hip
      have hpe := Option.some.inj hip
      subst hpe
      dsimp only
      rw [List.getElem?_set_self hblt]
      simp
    · rw [List.getElem?_set_ne hij] at hip
      dsimp only
      rw [List.getElem?_set_ne hij]
      exact hiff i p hip
  · dsimp only
    rw [verifiedSum_set_true piece { piece with unfilled := [] } hbitp hp rfl, hsum]

theorem InvBase_step {H : List Nat → List Nat} {s : DF} {b : Block}
    {r : Except Unit Unit} {s' : DF}
    (hI : InvBase s) (h : DownloadFile.process_block H s b = some (r, s')) : InvBase s' := by
  rcases process_block_cases h with rfl | ⟨piece, idx, hp, hne, hpos, _hr, hcase⟩
  · exact hI
  · have hbw := hI.2.2.2.1 b.piece piece hp
    have hchain := hI.2.2.1
    have hfile := hI.2.1
    have hmem : (b.offset, b.offset + b.data.length) ∈ piece.unfilled := position_mem hpos
    have hrb := hbw.1 _ (hbw.2.1 _ hmem)
    have hpoff := chain_get hchain hp
    have hwb : (b.offset + piece.offset) + b.data.length ≤ s.file.length := by
      rw [hfile]
      simp at hrb
      omega
    have hflen := length_writeAt hwb
    rcases hcase with ⟨hcne, rfl⟩ | ⟨hceq, bytes, _hhash, hsub⟩
    · exact InvBase_write_aux hI hp hne
        (fun r hr => hbw.2.1 _ (swapRemove_subset r hr)) hcne hflen
    · rcases hsub with ⟨_hHeq, hblt, rfl⟩ | ⟨_hHne, rfl⟩
      · rw [hceq]
        exact InvBase_complete_aux hI hp hne hflen
      · exact InvBase_write_aux hI hp hne (fun r hr => hr) hbw.2.2 hflen

theorem InvHash_step {H : List Nat → List Nat} {s : DF} {b : Block}
    {r : Except Unit Unit} {s' : DF}
    (hI : InvBase s) (hHI : InvHash H s)
    (h : DownloadFile.process_block H s b = some (r, s')) : InvHash H s' := by
  rcases process_block_cases h with rfl | ⟨piece, idx, hp, hne, hpos, _hr, hcase⟩
  · exact hHI
  · have hbw := hI.2.2.2.1 b.piece piece hp
    have hchain := hI.2.2.1
    have hfile := hI.2.1
    have hmem : (b.offset, b.offset + b.data.length) ∈ piece.unfilled := position_mem hpos
    have hrb := hbw.1 _ (hbw.2.1 _ hmem)
    have hpoff := chain_get hchain hp
    have hwb : (b.offset + piece.offset) + b.data.length ≤ s.file.length := by
      rw [hfile]
      simp at hrb
      omega
    have hflen := length_writeAt hwb
    have hslice : ∀ (i : Nat) (p : DFPiece), ¬b.piece = i → s.pieces[i]? = some p →
        fslice (writeAt s.file (b.offset + piece.offset) b.data) p.offset p.length
          = fslice s.file p.offset p.length := by
      intro i p hij hipold
      rcases Nat.lt_or_ge i b.piece with hlt | hge
      · have hdj := chain_disjoint hchain hlt hipold hp
        apply fslice_writeAt_left hwb
        omega
      · have hlt2 : b.piece < i := by omega
        have hdj := chain_disjoint hchain hlt2 hp hipold
        apply fslice_writeAt_right hwb
        simp at hrb
        omega
    rcases hcase with ⟨hcne, rfl⟩ | ⟨hceq, bytes, hhash, hsub⟩
    · intro i p hip hempty
      by_cases hij : b.piece = i
      · subst hij
        rw [List.getElem?_set_self (List.getElem?_eq_some.mp hp).1] at hip
        have hpe := Option.some.inj hip
        subst hpe
        exact absurd hempty hcne
      · rw [List.getElem?_set_ne hij] at hip
        dsimp only
        rw [hslice i p hij hip]
        exact hHI i p hip hempty
    · rcases hsub with ⟨hHeq, hblt, rfl⟩ | ⟨hHne, rfl⟩
      · intro i p hip hempty
        by_cases hij : b.piece = i
        · subst hij
          rw [List.getElem?_set_self (List.getElem?_eq_some.mp hp).1] at hip
          have hpe := Option.some.inj hip
          subst hpe
          dsimp only
          have hlenf1 : piece.offset + piece.length
              ≤ (writeAt s.file (b.offset + piece.offset) b.data).length := by
            rw [hflen, hfile]
            omega
          rw [hashLoop_spec hlenf1] at hhash
          have hb := Option.some.inj hhash
          rw [hb]
          exact hHeq
        · rw [List.getElem?_set_ne hij] at hip
          dsimp only
          rw [hslice i p hij hip]
          exact hHI i p hip hempty
      · intro i p hip hempty
        by_cases hij : b.piece = i
        · subst hij
          rw [List.getElem?_set_self (List.getElem?_eq_some.mp hp).1] at hip
          have hpe := Option.some.inj hip
          subst hpe
          exact absurd hempty hbw.2.2
        · rw [List.getElem?_set_ne hij] at hip
          dsimp only
          rw [hslice i p hij hip]
          exact hHI i p hip hempty

theorem ReachS_InvBase {H : List Nat → List Nat} {s : DF} (h : ReachS H s) : InvBase s := by
  induction h with
  | base disk hashes ps total s hw hnew => exact InvBase_new hw hnew
  | seed disk hashes ps total s hw hnew => exact InvBase_seed hw hnew
  | step s b r s' _ hstep ih => exact InvBase_step ih hstep

theorem Reach_ReachS {H : List Nat → List Nat} {s : DF} (h : Reach H s) : ReachS H s := by
  induction h with
  | base disk hashes ps total s hw hnew => exact ReachS.base disk hashes ps total s hw hnew
  | step s b r s' _ hstep ih => exact ReachS.step s b r s' ih hstep

theorem Reach_InvHash {H : List Nat → List Nat} {s : DF} (h : Reach H s) : InvHash H s := by
  induction h with
  | base disk hashes ps total s hw hnew => exact InvHash_new H hw hnew
  | step s b r s' hre hstep ih =>
    exact InvHash_step (ReachS_InvBase (Reach_ReachS hre)) ih hstep

/-! ## Supporting lemmas for the claims about the store -/

theorem piece_is_complete_iff {s : DF} {i : Nat} {p : DFPiece}
    (hp : s.pieces[i]? = some p) :
    DownloadFile.piece_is_complete s i = .ok true ↔ p.unfilled = [] := by
  rw [DownloadFile.piece_is_complete, hp]
  dsimp only
  constructor
  · intro h
    exact List.isEmpty_iff.mp (Except.ok.inj h)
  · intro h
    rw [h]
    rfl

theorem process_block_downloaded_mono {H : List Nat → List Nat} {s : DF} {b : Block}
    {r : Except Unit Unit} {s' : DF}
    (h : DownloadFile.process_block H s b = some (r, s')) :
    s.downloaded ≤ s'.downloaded ∧ s'.total_size = s.total_size := by
  rcases process_block_cases h with rfl | ⟨piece, idx, _, _, _, _, hcase⟩
  · exact ⟨Nat.le_refl _, rfl⟩
  · rcases hcase with ⟨_, rfl⟩ | ⟨_, _, _, hsub⟩
    · exact ⟨Nat.le_refl _, rfl⟩
    · rcases hsub with ⟨_, _, rfl⟩ | ⟨_, rfl⟩
      · exact ⟨Nat.le_add_right _ _, rfl⟩
      · exact ⟨Nat.le_refl _, rfl⟩

/-! ## Claim C2 -/

/-- C2: after every completed File store operation — construction, seed-mode
construction, or any `process_block` call, whether it returns `Ok` or `Err`
— the unfilled set of piece `i` is empty exactly when bitfield bit `i` is
set, and the verified-byte count `downloaded` equals the sum of the lengths
of the pieces whose bits are set. -/
theorem C2_bitfield_unfilled_consistency (H : List Nat → List Nat) (s : DF)
    (i : Nat) (p : DFPiece) (hs : ReachS H s) (hp : s.pieces[i]? = some p) :
    (p.unfilled = [] ↔ s.bitfield[i]? = some true) ∧
    s.downloaded = verifiedSum s.bitfield s.pieces := by
  have hI := ReachS_InvBase hs
  exact ⟨hI.2.2.2.2.1 i p hp, hI.2.2.2.2.2⟩

/-- Witness for C2 at the concrete store `wS0 = new [[5]] 1 1`. -/
theorem C2_witness :
    (({ unfilled := [(0, 1)], all_blocks := [(0, 1)], offset := 0, length := 1,
        hash := [5] } : DFPiece).unfilled = [] ↔ wS0.bitfield[0]? = some true) ∧
    wS0.downloaded = verifiedSum wS0.bitfield wS0.pieces :=
  C2_bitfield_unfilled_consistency exIdH wS0 0
    { unfilled := [(0, 1)], all_blocks := [(0, 1)], offset := 0, length := 1, hash := [5] }
    (ReachS.base [] [[5]] 1 1 wS0 (by decide) (by decide)) (by decide)

/-! ## Claim C1 -/

/-- C1: on every store constructed by `new`/`new_from_file` and driven by
any sequence of `process_block` calls, (a) whenever `piece_is_complete i`
returns `true` the bytes stored in the backing file for piece `i` hash
(under the digest function used for verification — SHA-1 in the code) to
the `i`-th declared digest, (b) the bitfield bit of `i` is set only when
the piece verified, and (c) a call whose final block completes the piece
with a mismatching digest restores the unfilled set to the full block
partition. -/
theorem C1_hash_integrity (H : List Nat → List Nat) (s : DF) (hs : Reach H s) :
    (∀ (i : Nat) (p : DFPiece), s.pieces[i]? = some p →
      (DownloadFile.piece_is_complete s i = .ok true →
        H (fslice s.file p.offset p.length) = p.hash) ∧
      (s.bitfield[i]? = some true → DownloadFile.piece_is_complete s i = .ok true)) ∧
    (∀ (b : Block) (r : Except Unit Unit) (s' : DF) (piece : DFPiece) (idx : Nat),
      DownloadFile.process_block H s b = some (r, s') →
      s.pieces[b.piece]? = some piece →
      position piece.unfilled (b.offset, b.offset + b.data.length) = some idx →
      swapRemove piece.unfilled idx = [] →
      H (fslice (writeAt s.file (b.offset + piece.offset) b.data) piece.offset piece.length)
        ≠ piece.hash →
      (s'.pieces[b.piece]?).map DFPiece.unfilled = some piece.all_blocks) := by
  have hI := ReachS_InvBase (Reach_ReachS hs)
  have hHI := Reach_InvHash hs
  constructor
  · intro i p hp
    constructor
    · intro hcomp
      exact hHI i p hp ((piece_is_complete_iff hp).mp hcomp)
    · intro hbit
      exact (piece_is_complete_iff hp).mpr ((hI.2.2.2.2.1 i p hp).mpr hbit)
  · intro b r s' piece idx h hp hpos hceq hmm
    have hne : piece.unfilled ≠ [] := by
      intro hl
      rw [hl] at hpos
      simp [position] at hpos
    have hemp : ¬piece.unfilled.isEmpty := fun he => hne (List.isEmpty_iff.mp he)
    have hbw := hI.2.2.2.1 b.piece piece hp
    have hmemr : (b.offset, b.offset + b.data.length) ∈ piece.unfilled := position_mem hpos
    have hrb := hbw.1 _ (hbw.2.1 _ hmemr)
    have hpoff := chain_get hI.2.2.1 hp
    have hwb : (b.offset + piece.offset) + b.data.length ≤ s.file.length := by
      rw [hI.2.1]
      simp at hrb
      omega
    have hlenf1 : piece.offset + piece.length
        ≤ (writeAt s.file (b.offset + piece.offset) b.data).length := by
      rw [length_writeAt hwb, hI.2.1]
      omega
    rw [process_block_found hp hemp hpos, if_pos (List.isEmpty_iff.mpr hceq),
      hashLoop_spec hlenf1] at h
    dsimp only at h
    rw [if_neg hmm] at h
    injection h with h'
    injection h' with _ hb
    rw [← hb]
    dsimp only
    rw [List.getElem?_set_self (List.getElem?_eq_some.mp hp).1]
    rfl

/-- Witness for C1 at the concrete complete store `wS1`, reached from
`new [[5]] 1 1` by one successful `process_block`. -/
theorem C1_witness :
    exIdH (fslice wS1.file 0 1) = [5] ∧
    DownloadFile.piece_is_complete wS1 0 = Except.ok true := by
  have hreach : Reach exIdH wS1 :=
    Reach.step wS0 wB0 (Except.ok ()) wS1
      (Reach.base [] [[5]] 1 1 wS0 (by decide) (by decide)) (by decide)
  have hmain := (C1_hash_integrity exIdH wS1 hreach).1 0
    { unfilled := [], all_blocks := [(0, 1)], offset := 0, length := 1, hash := [5] }
    (by decide)
  exact ⟨hmain.1 (hmain.2 (by decide)), hmain.2 (by decide)⟩

/-! ## Claim C5 -/

theorem process_block_ok {H : List Nat → List Nat} {s : DF} {b : Block}
    {r : Except Unit Unit} {s' : DF} (hb : b.piece < s.pieces.length)
    (h : DownloadFile.process_block H s b = some (r, s')) : r = Except.ok () := by
  cases hp : s.pieces[b.piece]? with
  | none =>
    have h2 := List.getElem?_eq_getElem hb
    rw [hp] at h2
    simp at h2
  | some piece =>
    by_cases hemp : piece.unfilled.isEmpty
    · rw [process_block_complete hp hemp] at h
      injection h with h'
      injection h' with ha _
      exact ha.symm
    · cases hpos : position piece.unfilled (b.offset, b.offset + b.data.length) with
      | none =>
        rw [process_block_nomatch hp hemp hpos] at h
        injection h with h'
        injection h' with ha _
        exact ha.symm
      | some idx =>
        rw [process_block_found hp hemp hpos] at h
        by_cases hcomp : (swapRemove piece.unfilled idx).isEmpty
        · rw [if_pos hcomp] at h
          cases hhash : hashLoop (writeAt s.file (b.offset + piece.offset) b.data)
              piece.offset piece.length [] with
          | none => rw [hhash] at h; simp at h
          | some bytes =>
            rw [hhash] at h
            dsimp only at h
            by_cases hH : H bytes = piece.hash
            · rw [if_pos hH] at h
              by_cases hbl : b.piece < s.bitfield.length
              · rw [if_pos hbl] at h
                injection h with h'
                injection h' with ha _
                exact ha.symm
              · rw [if_neg hbl] at h
                simp at h
            · rw [if_neg hH] at h
              injection h with h'
              injection h' with ha _
              exact ha.symm
        · rw [if_neg hcomp] at h
          injection h with h'
          injection h' with ha _
          exact ha.symm

/-- C5 (counterexample): on a store whose two-block piece just failed digest
verification (so its unfilled set was restored to the full partition),
resubmitting the very same block a second time returns success but removes
that block from the restored unfilled set again — the second call of the
pair is not a no-op on the piece descriptors, contradicting the claim. -/
theorem C5_counterexample :
    c5s2.map (fun s2 => s2.pieces.map DFPiece.unfilled) = some [[(0, 1), (1, 2)]] ∧
    (c5s2.bind fun s2 => DownloadFile.process_block exConstH s2 c5b1).map
        (fun r => (r.1, r.2.pieces.map DFPiece.unfilled))
      = some (Except.ok (), [[(0, 1)]]) :=
  ⟨by decide, by decide⟩

/-- C5 (amended): for an in-range block, `process_block` returns `Ok`; the
second of two calls with the same block is a success and a strict no-op
whenever the first call did not end in a digest-mismatch restore — that is,
whenever after the first call the piece is complete or the block no longer
matches an unfilled sub-range — and `left()` never increases across any
`process_block` call. -/
theorem C5_idempotent_amended (H : List Nat → List Nat) (s : DF) (b : Block)
    (r : Except Unit Unit) (s' : DF) (hb : b.piece < s.pieces.length)
    (h : DownloadFile.process_block H s b = some (r, s')) :
    r = Except.ok () ∧
    ((∃ piece, s'.pieces[b.piece]? = some piece ∧
        (piece.unfilled = [] ∨
          position piece.unfilled (b.offset, b.offset + b.data.length) = none)) →
      DownloadFile.process_block H s' b = some (Except.ok (), s')) ∧
    (∀ l l', DownloadFile.left s = some l → DownloadFile.left s' = some l' → l' ≤ l) := by
  refine ⟨process_block_ok hb h, ?_, ?_⟩
  · rintro ⟨piece, hp', hcase⟩
    rcases hcase with he | hpos
    · exact process_block_complete hp' (List.isEmpty_iff.mpr he)
    · by_cases hemp : piece.unfilled.isEmpty
      · exact process_block_complete hp' hemp
      · exact process_block_nomatch hp' hemp hpos
  · have hmono := process_block_downloaded_mono h
    intro l l' hl hl'
    rw [DownloadFile.left] at hl hl'
    split at hl
    · split at hl'
      · injection hl with h1
        injection hl' with h2
        omega
      · exact absurd hl' (by simp)
    · exact absurd hl (by simp)

/-- Witness for the amended C5: on the completed store `wS1`, resubmitting
the very same block is a success and a strict no-op, and `left()` did not
increase across the completing call. -/
theorem C5_witness :
    DownloadFile.process_block exIdH wS1 wB0 = some (Except.ok (), wS1) ∧ (0 : Nat) ≤ 1 := by
  have h1 : DownloadFile.process_block exIdH wS0 wB0 = some (Except.ok (), wS1) := by decide
  have hm := C5_idempotent_amended exIdH wS0 wB0 (Except.ok ()) wS1 (by decide) h1
  refine ⟨?_, ?_⟩
  · exact hm.2.1 ⟨{ unfilled := [], all_blocks := [(0, 1)], offset := 0, length := 1, hash := [5] }, by decide, Or.inl rfl⟩
  · exact hm.2.2 1 0 (by decide) (by decide)

/-! ## Claim C10 -/

/-- C10 (counterexample): on a store successfully opened in seed mode,
calling `get_block` with the backwards range `3..1` — which passes the
code's only range check, `end > piece.length` — reaches the buffer
allocation `vec![0u8; end - start]`, whose size computation underflows: the
call panics (`none`) rather than returning `Ok` or `Err`. -/
theorem C10_counterexample :
    c10s.map (fun s => DownloadFile.get_block s c10bad) = some none := by decide

/-- C10 (amended): `get_block` returns `Ok` or `Err` (never panics) for
every `BlockInfo` whose range is well-formed (`start ≤ end`, as every
wire-decoded `Request` produces); `process_block` returns `Ok` or `Err` on
every reachable store — in particular its 4 KiB verification loop
terminates — and, for wire-bounded inputs on a store whose total size fits
in a `usize`, the offset arithmetic the call performs stays below `2^64`. -/
theorem C10_no_panic_amended (H : List Nat → List Nat) (s : DF) (b : Block) (bi : BlockInfo) :
    (bi.range.1 ≤ bi.range.2 → (DownloadFile.get_block s bi).isSome = true) ∧
    (ReachS H s → (DownloadFile.process_block H s b).isSome = true) ∧
    (ReachS H s → b.offset < 2 ^ 32 → b.data.length < 2 ^ 32 → s.total_size < 2 ^ 64 →
      b.offset + b.data.length < 2 ^ 64 ∧
      (∀ (piece : DFPiece) (idx : Nat), s.pieces[b.piece]? = some piece →
        position piece.unfilled (b.offset, b.offset + b.data.length) = some idx →
        b.offset + piece.offset < 2 ^ 64)) := by
  refine ⟨?_, ?_, ?_⟩
  · intro hle
    rw [DownloadFile.get_block]
    cases hp : s.pieces[bi.piece]? with
    | none => rfl
    | some piece =>
      dsimp only
      by_cases h1 : ¬piece.unfilled.isEmpty
      · rw [if_pos h1]; rfl
      · rw [if_neg h1]
        by_cases h2 : piece.length < bi.range.2
        · rw [if_pos h2]; rfl
        · rw [if_neg h2, if_neg (by omega)]
          by_cases h3 : piece.offset + bi.range.1 + (bi.range.2 - bi.range.1) ≤ s.file.length
          · rw [if_pos h3]; rfl
          · rw [if_neg h3]; rfl
  · intro hs
    have hI := ReachS_InvBase hs
    cases hp : s.pieces[b.piece]? with
    | none => rw [process_block_out_of_range (H := H) hp]; rfl
    | some piece =>
      by_cases hemp : piece.unfilled.isEmpty
      · rw [process_block_complete hp hemp]; rfl
      · cases hpos : position piece.unfilled (b.offset, b.offset + b.data.length) with
        | none => rw [process_block_nomatch hp hemp hpos]; rfl
        | some idx =>
          have hbw := hI.2.2.2.1 b.piece piece hp
          have hmemr : (b.offset, b.offset + b.data.length) ∈ piece.unfilled :=
            position_mem hpos
          have hrb := hbw.1 _ (hbw.2.1 _ hmemr)
          have hpoff := chain_get hI.2.2.1 hp
          have hwb : (b.offset + piece.offset) + b.data.length ≤ s.file.length := by
            rw [hI.2.1]
            simp at hrb
            omega
          have hlenf1 : piece.offset + piece.length
              ≤ (writeAt s.file (b.offset + piece.offset) b.data).length := by
            rw [length_writeAt hwb, hI.2.1]
            omega
          have hblt : b.piece < s.bitfield.length := by
            have := (List.getElem?_eq_some.mp hp).1
            have hlen := hI.1
            omega
          rw [process_block_found hp hemp hpos]
          by_cases hcomp : (swapRemove piece.unfilled idx).isEmpty
          · rw [if_pos hcomp, hashLoop_spec hlenf1]
            dsimp only
            by_cases hH : H (fslice (writeAt s.file (b.offset + piece.offset) b.data)
                piece.offset piece.length) = piece.hash
            · rw [if_pos hH, if_pos hblt]; rfl
            · rw [if_neg hH]; rfl
          · rw [if_neg hcomp]; rfl
  · intro hs h32o h32l h64
    have hI := ReachS_InvBase hs
    constructor
    · have hp32 : (2 : Nat) ^ 32 = 4294967296 := by norm_num
      have hp64 : (2 : Nat) ^ 64 = 18446744073709551616 := by norm_num
      rw [hp32] at h32o h32l
      rw [hp64]
      omega
    · intro piece idx hp hpos
      have hbw := hI.2.2.2.1 b.piece piece hp
      have hmemr : (b.offset, b.offset + b.data.length) ∈ piece.unfilled := position_mem hpos
      have hrb := hbw.1 _ (hbw.2.1 _ hmemr)
      have hpoff := chain_get hI.2.2.1 hp
      simp at hrb
      omega

/-- Witness for the amended C10 at concrete inputs: a well-formed range on
`wS0`, a `process_block` call on the reachable store `wS0`, and its offset
arithmetic bound. -/
theorem C10_witness :
    (DownloadFile.get_block wS0 { piece := 0, range := (0, 1) }).isSome = true ∧
    (DownloadFile.process_block exIdH wS0 wB0).isSome = true ∧
    wB0.offset + wB0.data.length < 2 ^ 64 := by
  have hreach : ReachS exIdH wS0 := ReachS.base [] [[5]] 1 1 wS0 (by decide) (by decide)
  refine ⟨?_, ?_, ?_⟩
  · exact (C10_no_panic_amended exIdH wS0 wB0 { piece := 0, range := (0, 1) }).1 (by decide)
  · exact (C10_no_panic_amended exIdH wS0 wB0 { piece := 0, range := (0, 1) }).2.1 hreach
  · exact ((C10_no_panic_amended exIdH wS0 wB0 { piece := 0, range := (0, 1) }).2.2 hreach
      (by decide) (by decide) (by decide)).1

/-! ## Scheduler lemmas -/

theorem pickRanges_extra (requested : List (Token × (BlockInfo × Addr))) (addr : Addr)
    (piece : Nat) : ∀ (rs : List RangeN) (ret : List (BlockInfo × Addr)) (count : Nat),
    ∃ extra, (pickRanges requested addr piece rs ret count).1 = ret ++ extra ∧
      (pickRanges requested addr piece rs ret count).2.1 = count + extra.length ∧
      ∀ e ∈ extra, e.2 = addr := by
  intro rs
  induction rs with
  | nil =>
    intro ret count
    exact ⟨[], by simp [pickRanges], by simp [pickRanges], by simp⟩
  | cons rg rest ih =>
    intro ret count
    rw [pickRanges]
    by_cases h1 : PIPELINE_DEPTH ≤ count
    · rw [if_pos h1]
      exact ⟨[], by simp, by simp, by simp⟩
    · rw [if_neg h1]
      by_cases h2 : ∃ e ∈ requested, e.2.1 = BlockInfo.mk piece rg
      · rw [if_pos h2]
        exact ih ret count
      · rw [if_neg h2]
        by_cases h3 : ∃ e ∈ ret, e.1 = BlockInfo.mk piece rg
        · rw [if_pos h3]
          exact ih ret count
        · rw [if_neg h3]
          obtain ⟨extra, ha, hb, hc⟩ := ih (ret ++ [(BlockInfo.mk piece rg, addr)]) (count + 1)
          refine ⟨(BlockInfo.mk piece rg, addr) :: extra, ?_, ?_, ?_⟩
          · rw [ha]
            simp
          · rw [hb]
            simp
            omega
          · intro e he
            rcases List.mem_cons.mp he with h | h
            · rw [h]
            · exact hc e h

theorem pickRanges_count_le (requested : List (Token × (BlockInfo × Addr))) (addr : Addr)
    (piece : Nat) : ∀ (rs : List RangeN) (ret : List (BlockInfo × Addr)) (count : Nat),
    count ≤ PIPELINE_DEPTH →
    (pickRanges requested addr piece rs ret count).2.1 ≤ PIPELINE_DEPTH := by
  intro rs
  induction rs with
  | nil => intro ret count h; simpa [pickRanges] using h
  | cons rg rest ih =>
    intro ret count h
    rw [pickRanges]
    by_cases h1 : PIPELINE_DEPTH ≤ count
    · rw [if_pos h1]; exact h
    · rw [if_neg h1]
      by_cases h2 : ∃ e ∈ requested, e.2.1 = BlockInfo.mk piece rg
      · rw [if_pos h2]; exact ih ret count h
      · rw [if_neg h2]
        by_cases h3 : ∃ e ∈ ret, e.1 = BlockInfo.mk piece rg
        · rw [if_pos h3]; exact ih ret count h
        · rw [if_neg h3]
          exact ih _ (count + 1) (by omega)

theorem pickRanges_good (requested : List (Token × (BlockInfo × Addr))) (addr : Addr)
    (piece : Nat) : ∀ (rs : List RangeN) (ret : List (BlockInfo × Addr)) (count : Nat),
    (ret.map Prod.fst).Nodup →
    (∀ bi ∈ ret.map Prod.fst, ¬∃ e ∈ requested, e.2.1 = bi) →
    (((pickRanges requested addr piece rs ret count).1.map Prod.fst).Nodup ∧
      ∀ bi ∈ (pickRanges requested addr piece rs ret count).1.map Prod.fst,
        ¬∃ e ∈ requested, e.2.1 = bi) := by
  intro rs
  induction rs with
  | nil =>
    intro ret count h1 h2
    rw [pickRanges]
    exact ⟨h1, h2⟩
  | cons rg rest ih =>
    intro ret count hnd hreq
    rw [pickRanges]
    by_cases h1 : PIPELINE_DEPTH ≤ count
    · rw [if_pos h1]; exact ⟨hnd, hreq⟩
    · rw [if_neg h1]
      by_cases h2 : ∃ e ∈ requested, e.2.1 = BlockInfo.mk piece rg
      · rw [if_pos h2]; exact ih ret count hnd hreq
      · rw [if_neg h2]
        by_cases h3 : ∃ e ∈ ret, e.1 = BlockInfo.mk piece rg
        · rw [if_pos h3]; exact ih ret count hnd hreq
        · rw [if_neg h3]
          apply ih
          · rw [List.map_append]
            rw [List.nodup_append]
            refine ⟨hnd, by simp, ?_⟩
            intro a ha
            simp
            intro haeq
            apply h3
            subst haeq
            rcases List.mem_map.mp ha with ⟨e, he, hee⟩
            exact ⟨e, he, hee⟩
          · intro bi hbi
            rw [List.map_append] at hbi
            rcases List.mem_append.mp hbi with h | h
            · exact hreq bi h
            · simp at h
              subst h
              exact h2

theorem pickPieces_extra (file : DF) (requested : List (Token × (BlockInfo × Addr)))
    (addr : Addr) : ∀ (ps : List Nat) (ret : List (BlockInfo × Addr)) (count : Nat),
    ∃ extra, (pickPieces file requested addr ps ret count).1 = ret ++ extra ∧
      (pickPieces file requested addr ps ret count).2 = count + extra.length ∧
      ∀ e ∈ extra, e.2 = addr := by
  intro ps
  induction ps with
  | nil =>
    intro ret count
    exact ⟨[], by simp [pickPieces], by simp [pickPieces], by simp⟩
  | cons p rest ih =>
    intro ret count
    rw [pickPieces]
    cases hg : DownloadFile.get_blocks file p with
    | none => exact ih ret count
    | some ranges =>
      obtain ⟨e1, he1, he2, he3⟩ := pickRanges_extra requested addr p ranges ret count
      rcases hpr : pickRanges requested addr p ranges ret count with ⟨ret1, c1, flag⟩
      rw [hpr] at he1 he2
      simp at he1 he2
      dsimp only
      rw [hpr]
      cases flag with
      | true => exact ⟨e1, he1, he2, he3⟩
      | false =>
        obtain ⟨e2, hf1, hf2, hf3⟩ := ih ret1 c1
        refine ⟨e1 ++ e2, ?_, ?_, ?_⟩
        · rw [hf1, he1, List.append_assoc]
        · rw [hf2, he2]
          simp
          omega
        · intro e he
          rcases List.mem_append.mp he with h | h
          · exact he3 e h
          · exact hf3 e h

theorem pickPieces_count_le (file : DF) (requested : List (Token × (BlockInfo × Addr)))
    (addr : Addr) : ∀ (ps : List Nat) (ret : List (BlockInfo × Addr)) (count : Nat),
    count ≤ PIPELINE_DEPTH →
    (pickPieces file requested addr ps ret count).2 ≤ PIPELINE_DEPTH := by
  intro ps
  induction ps with
  | nil => intro ret count h; simpa [pickPieces] using h
  | cons p rest ih =>
    intro ret count h
    rw [pickPieces]
    cases hg : DownloadFile.get_blocks file p with
    | none => exact ih ret count h
    | some ranges =>
      have hcle := pickRanges_count_le requested addr p ranges ret count h
      rcases hpr : pickRanges requested addr p ranges ret count with ⟨ret1, c1, flag⟩
      rw [hpr] at hcle
      simp at hcle
      dsimp only
      rw [hpr]
      cases flag with
      | true => exact hcle
      | false => exact ih ret1 c1 hcle

theorem pickPieces_good (file : DF) (requested : List (Token × (BlockInfo × Addr)))
    (addr : Addr) : ∀ (ps : List Nat) (ret : List (BlockInfo × Addr)) (count : Nat),
    (ret.map Prod.fst).Nodup →
    (∀ bi ∈ ret.map Prod.fst, ¬∃ e ∈ requested, e.2.1 = bi) →
    (((pickPieces file requested addr ps ret count).1.map Prod.fst).Nodup ∧
      ∀ bi ∈ (pickPieces file requested addr ps ret count).1.map Prod.fst,
        ¬∃ e ∈ requested, e.2.1 = bi) := by
  intro ps
  induction ps with
  | nil =>
    intro ret count h1 h2
    rw [pickPieces]
    exact ⟨h1, h2⟩
  | cons p rest ih =>
    intro ret count hnd hreq
    rw [pickPieces]
    cases hg : DownloadFile.get_blocks file p with
    | none => exact ih ret count hnd hreq
    | some ranges =>
      have hgood := pickRanges_good requested addr p ranges ret count hnd hreq
      rcases hpr : pickRanges requested addr p ranges ret count with ⟨ret1, c1, flag⟩
      rw [hpr] at hgood
      dsimp only at hgood
      dsimp only
      rw [hpr]
      cases flag with
      | true => exact hgood
      | false => exact ih ret1 c1 hgood.1 hgood.2

theorem pickPeer_extra (file : DF) (requested : List (Token × (BlockInfo × Addr)))
    (peers : List (Addr × PeerInfo)) (ret : List (BlockInfo × Addr)) (addr : Addr) :
    ∃ extra, pickPeer file requested peers ret addr = ret ++ extra ∧
      (∀ e ∈ extra, e.2 = addr) ∧
      (countReqTo requested addr ≤ PIPELINE_DEPTH →
        countReqTo requested addr + extra.length ≤ PIPELINE_DEPTH) := by
  rw [pickPeer]
  cases hl : lookupL peers addr with
  | none => exact ⟨[], by simp, by simp, fun h => by simpa using h⟩
  | some pinfo =>
    dsimp only
    by_cases hc : pinfo.peer_choked
    · rw [if_pos hc]
      exact ⟨[], by simp, by simp, fun h => by simpa using h⟩
    · rw [if_neg hc]
      obtain ⟨extra, he1, he2, he3⟩ :=
        pickPieces_extra file requested addr (iter_ones pinfo.has) ret
          (countReqTo requested addr)
      refine ⟨extra, he1, he3, ?_⟩
      intro hle
      have := pickPieces_count_le file requested addr (iter_ones pinfo.has) ret
        (countReqTo requested addr) hle
      omega

theorem pickPeer_good (file : DF) (requested : List (Token × (BlockInfo × Addr)))
    (peers : List (Addr × PeerInfo)) (ret : List (BlockInfo × Addr)) (addr : Addr)
    (hnd : (ret.map Prod.fst).Nodup)
    (hreq : ∀ bi ∈ ret.map Prod.fst, ¬∃ e ∈ requested, e.2.1 = bi) :
    (((pickPeer file requested peers ret addr).map Prod.fst).Nodup ∧
      ∀ bi ∈ (pickPeer file requested peers ret addr).map Prod.fst,
        ¬∃ e ∈ requested, e.2.1 = bi) := by
  rw [pickPeer]
  cases hl : lookupL peers addr with
  | none => exact ⟨hnd, hreq⟩
  | some pinfo =>
    dsimp only
    by_cases hc : pinfo.peer_choked
    · rw [if_pos hc]
      exact ⟨hnd, hreq⟩
    · rw [if_neg hc]
      exact pickPieces_good file requested addr (iter_ones pinfo.has) ret
        (countReqTo requested addr) hnd hreq

theorem pickFold_good (file : DF) (requested : List (Token × (BlockInfo × Addr)))
    (peers : List (Addr × PeerInfo)) :
    ∀ (order : List Addr) (ret : List (BlockInfo × Addr)),
    (ret.map Prod.fst).Nodup →
    (∀ bi ∈ ret.map Prod.fst, ¬∃ e ∈ requested, e.2.1 = bi) →
    (((order.foldl (fun acc addr => pickPeer file requested peers acc addr) ret).map
        Prod.fst).Nodup ∧
      ∀ bi ∈ (order.foldl (fun acc addr => pickPeer file requested peers acc addr) ret).map
          Prod.fst, ¬∃ e ∈ requested, e.2.1 = bi) := by
  intro order
  induction order with
  | nil => intro ret h1 h2; exact ⟨h1, h2⟩
  | cons a rest ih =>
    intro ret h1 h2
    have hstep := pickPeer_good file requested peers ret a h1 h2
    exact ih (pickPeer file requested peers ret a) hstep.1 hstep.2

/-! ## Claim C3 -/

/-- C3: the pairs returned by one `pick_blocks` call (for any peer
iteration order — in the code, a random shuffle of the peer-map keys)
contain no block info twice, and contain no block info that already occurs
as a value of the outstanding-request table: no two peers are ever asked
for the same block simultaneously. -/
theorem C3_scheduler_uniqueness (st : MainState) (order : List Addr) :
    ((pick_blocks st order).map Prod.fst).Nodup ∧
    ∀ bi ∈ (pick_blocks st order).map Prod.fst, ¬∃ e ∈ st.requested, e.2.1 = bi := by
  rw [pick_blocks]
  exact pickFold_good st.file st.requested st.peers order [] (by simp) (by simp)

/-- Witness for C3 on a one-peer, one-piece state where the scheduler
actually emits a request. -/
theorem C3_witness :
    ((pick_blocks c3st [1]).map Prod.fst).Nodup ∧
    ¬∃ e ∈ c3st.requested, e.2.1 = BlockInfo.mk 0 (0, 1) :=
  ⟨(C3_scheduler_uniqueness c3st [1]).1,
    (C3_scheduler_uniqueness c3st [1]).2 (BlockInfo.mk 0 (0, 1)) (by decide)⟩

/-! ## Claim C4 -/

theorem filter_tag_eq {extra : List (BlockInfo × Addr)} {a : Addr}
    (h : ∀ e ∈ extra, e.2 = a) :
    (extra.filter (fun e => decide (e.2 = a))).length = extra.length := by
  have : extra.filter (fun e => decide (e.2 = a)) = extra := by
    rw [List.filter_eq_self]
    intro e he
    simp [h e he]
  rw [this]

theorem filter_tag_ne {extra : List (BlockInfo × Addr)} {a p : Addr}
    (hne : ¬a = p) (h : ∀ e ∈ extra, e.2 = a) :
    (extra.filter (fun e => decide (e.2 = p))).length = 0 := by
  have : extra.filter (fun e => decide (e.2 = p)) = [] := by
    rw [List.filter_eq_nil_iff]
    intro e he
    simp [h e he]
    exact hne
  rw [this]
  rfl

theorem pickFold_filter_le (file : DF) (requested : List (Token × (BlockInfo × Addr)))
    (peers : List (Addr × PeerInfo)) (p : Addr) :
    ∀ (order : List Addr) (ret : List (BlockInfo × Addr)), order.Nodup →
    countReqTo requested p ≤ PIPELINE_DEPTH →
    ((order.foldl (fun acc addr => pickPeer file requested peers acc addr) ret).filter
        (fun e => decide (e.2 = p))).length
      ≤ (ret.filter (fun e => decide (e.2 = p))).length +
        (if p ∈ order then PIPELINE_DEPTH - countReqTo requested p else 0) := by
  intro order
  induction order with
  | nil =>
    intro ret _ _
    simp
  | cons a rest ih =>
    intro ret hnd hc
    have hnd' : rest.Nodup := (List.nodup_cons.mp hnd).2
    have hanr : a ∉ rest := (List.nodup_cons.mp hnd).1
    obtain ⟨extra, he1, he2, he3⟩ := pickPeer_extra file requested peers ret a
    have hfold : (a :: rest).foldl (fun acc addr => pickPeer file requested peers acc addr) ret
        = rest.foldl (fun acc addr => pickPeer file requested peers acc addr) (ret ++ extra) := by
      rw [List.foldl_cons, he1]
    rw [hfold]
    have hih := ih (ret ++ extra) hnd' hc
    rw [List.filter_append, List.length_append] at hih
    by_cases hap : a = p
    · subst hap
      have hnotin : a ∉ rest := hanr
      rw [if_neg hnotin] at hih
      rw [filter_tag_eq he2] at hih
      have hcnt := he3 hc
      have hmem : a ∈ a :: rest := by simp
      rw [if_pos hmem]
      omega
    · rw [filter_tag_ne hap he2] at hih
      by_cases hpr : p ∈ rest
      · rw [if_pos hpr] at hih
        rw [if_pos (by simp [hpr])]
        omega
      · rw [if_neg hpr] at hih
        have hnotm : p ∉ a :: rest := by
          intro hm
          rcases List.mem_cons.mp hm with h | h
          · exact hap h.symm
          · exact hpr h
        rw [if_neg hnotm]
        omega

/-- C4: for every engine state whose outstanding-request table holds at most
`PIPELINE_DEPTH` (= 3) entries for peer `p` — which the engine maintains,
since entries are only inserted from `pick_blocks` output — the outstanding
count plus the number of new `pick_blocks` pairs for `p` is at most the
pipeline depth, for any duplicate-free iteration order (the shuffled key
list is duplicate-free). -/
theorem C4_pipeline_bound (st : MainState) (order : List Addr) (p : Addr)
    (hnd : order.Nodup) (hout : countReqTo st.requested p ≤ PIPELINE_DEPTH) :
    countReqTo st.requested p +
      ((pick_blocks st order).filter (fun e => decide (e.2 = p))).length ≤ PIPELINE_DEPTH := by
  have hfl := pickFold_filter_le st.file st.requested st.peers p order [] hnd hout
  have h0 : (([] : List (BlockInfo × Addr)).filter (fun e => decide (e.2 = p))).length = 0 := rfl
  rw [h0] at hfl
  rw [pick_blocks]
  by_cases hp : p ∈ order
  · rw [if_pos hp] at hfl
    omega
  · rw [if_neg hp] at hfl
    omega

/-- Witness for C4 on a one-peer state with an empty outstanding table. -/
theorem C4_witness :
    countReqTo c3st.requested 1 +
      ((pick_blocks c3st [1]).filter (fun e => decide (e.2 = 1))).length ≤ PIPELINE_DEPTH :=
  C4_pipeline_bound c3st [1] 1 (by decide) (by decide)

/-! ## Claim C6 -/

/-- C6 (the code at the failing input): the receiving half of
`do_handshake` returns `Ok` for a 68-byte handshake whose info-hash field
(all zeroes) differs from the torrent's info-hash — the function reads the
68 bytes and performs no validation at all, so a mismatched info-hash does
not terminate the session. -/
theorem C6_handshake_accepts_mismatch :
    do_handshake_recv c6hs = Except.ok () ∧ handshake_info_hash c6hs ≠ c6myhash :=
  ⟨by decide, by decide⟩

/-! ## Claim C7 -/

/-- C7 (counterexample): a `Request` the engine fails to serve (the piece
is not complete) does not terminate the peer: the engine logs the handler
error and continues with the state unchanged — in particular the peer's
record at address 7 is still in the peer map, contradicting the claimed
eviction. -/
theorem C7_counterexample :
    DownloadFile.get_block c7st.file (BlockInfo.mk 0 (0, 1)) = some (Except.error ()) ∧
    engine_request_event c7st 7 0 0 1 = (c7st, []) ∧
    lookupL (engine_request_event c7st 7 0 0 1).1.peers 7 = some c7peer :=
  ⟨by decide, by decide, by decide⟩

/-- C7 (amended): when the engine receives a `Request` from a peer it is
not choking and serving it fails, `handle_peer_response` returns an error
that the main loop merely logs: the engine state is unchanged, no message
is sent, the peer record is NOT evicted, and the engine keeps running. -/
theorem C7_request_failure_amended (st : MainState) (addr : Addr)
    (piece offset length : Nat) (pinfo : PeerInfo)
    (hpeer : lookupL st.peers addr = some pinfo) (hchoke : pinfo.choked = false)
    (hfail : ∀ data, DownloadFile.get_block st.file
      (BlockInfo.mk piece (offset, offset + length)) ≠ some (Except.ok data)) :
    engine_request_event st addr piece offset length = (st, []) ∧
    lookupL (engine_request_event st addr piece offset length).1.peers addr = some pinfo := by
  have hmain : engine_request_event st addr piece offset length = (st, []) := by
    rw [engine_request_event, handle_request, hpeer]
    dsimp only
    rw [if_neg (by simp [hchoke])]
    cases hg : DownloadFile.get_block st.file (BlockInfo.mk piece (offset, offset + length)) with
    | none => rfl
    | some r =>
      cases r with
      | ok data => exact absurd hg (hfail data)
      | error e => rfl
  exact ⟨hmain, by rw [hmain]; exact hpeer⟩

/-- Witness for the amended C7 at the concrete state `c7st`. -/
theorem C7_witness :
    engine_request_event c7st 7 0 0 1 = (c7st, []) ∧
    lookupL (engine_request_event c7st 7 0 0 1).1.peers 7 = some c7peer :=
  C7_request_failure_amended c7st 7 0 0 1 c7peer (by decide) (by decide)
    (by
      intro data h
      rw [(by decide :
        DownloadFile.get_block c7st.file (BlockInfo.mk 0 (0, 1))
          = some (Except.error ()))] at h
      simp at h)

/-! ## Claim C9 -/

/-- C9 (counterexample): when the request timer for token 1 fires, the
engine removes that one entry and evicts peer 7 — but the second
outstanding entry referencing peer 7 stays in the table, and the very next
`pick_blocks` pass reads that table: removal of a peer does not purge the
entries referencing it. -/
theorem C9_counterexample :
    lookupL (engine_timer_event c9st 1).peers 7 = none ∧
    (engine_timer_event c9st 1).requested.filter (fun e => decide (e.2.2 = 7)) ≠ [] :=
  ⟨by decide, by decide⟩

theorem lookupL_filter_ne_self {α β : Type} [DecidableEq α] :
    ∀ (l : List (α × β)) (x : α),
    lookupL (l.filter (fun e => decide (e.1 ≠ x))) x = none := by
  intro l x
  induction l with
  | nil => rfl
  | cons ab rest ih =>
    obtain ⟨a, b⟩ := ab
    rw [List.filter_cons]
    by_cases hx : a = x
    · rw [if_neg (by simp [hx])]
      exact ih
    · rw [if_pos (by simp [hx])]
      rw [lookupL, if_neg hx]
      exact ih

theorem lookupL_filter_ne_other {α β : Type} [DecidableEq α] :
    ∀ (l : List (α × β)) (x t : α) (e : β), t ≠ x → lookupL l t = some e →
    lookupL (l.filter (fun q => decide (q.1 ≠ x))) t = some e := by
  intro l x t e hne
  induction l with
  | nil => intro h; simp [lookupL] at h
  | cons ab rest ih =>
    obtain ⟨a, b⟩ := ab
    intro h
    rw [lookupL] at h
    by_cases ha : a = t
    · rw [if_pos ha] at h
      rw [List.filter_cons, if_pos (by simp [ha]; exact hne)]
      rw [lookupL, if_pos ha]
      exact h
    · rw [if_neg ha] at h
      rw [List.filter_cons]
      by_cases hax : a = x
      · rw [if_neg (by simp [hax])]
        exact ih h
      · rw [if_pos (by simp [hax])]
        rw [lookupL, if_neg ha]
        exact ih h

/-- C9 (amended): on a request-timer expiry for token `tok` mapped to
`(bi, addr)`, the engine removes exactly that entry and evicts exactly that
peer record; every other outstanding entry — including entries whose value
references the evicted address — survives into the table the next
`pick_blocks` pass reads.  (The tracker-pruning and failed-send eviction
paths remove peers without touching the table at all.) -/
theorem C9_no_purge_amended (st : MainState) (tok : Token) (bi : BlockInfo) (addr : Addr)
    (h : lookupL st.requested tok = some (bi, addr)) :
    lookupL (engine_timer_event st tok).requested tok = none ∧
    lookupL (engine_timer_event st tok).peers addr = none ∧
    (∀ (t : Token) (e : BlockInfo × Addr), t ≠ tok → lookupL st.requested t = some e →
      lookupL (engine_timer_event st tok).requested t = some e) := by
  rw [engine_timer_event, h]
  dsimp only
  refine ⟨?_, ?_, ?_⟩
  · exact lookupL_filter_ne_self st.requested tok
  · exact lookupL_filter_ne_self st.peers addr
  · intro t e ht hlook
    exact lookupL_filter_ne_other st.requested tok t e ht hlook

/-- Witness for the amended C9 at the concrete state `c9st`. -/
theorem C9_witness :
    lookupL (engine_timer_event c9st 1).requested 1 = none ∧
    lookupL (engine_timer_event c9st 1).peers 7 = none ∧
    lookupL (engine_timer_event c9st 1).requested 2
      = some ({ piece := 0, range := (1, 2) }, 7) := by
  have hm := C9_no_purge_amended c9st 1 { piece := 0, range := (0, 1) } 7 (by decide)
  exact ⟨hm.1, hm.2.1, hm.2.2 2 ({ piece := 0, range := (1, 2) }, 7) (by decide) (by decide)⟩

/-! ## Claim C8 (timer service — modelled from the spec) -/

theorem timerStep_inv {ts : List TimerEntry} {t : Token} {ev : TimerEvent}
    (hts : ∀ e ∈ ts, e.tok ≠ t) (hev : ¬schedules t ev) :
    (∀ e ∈ (timerStep ts ev).1, e.tok ≠ t) ∧ t ∉ (timerStep ts ev).2 := by
  cases ev with
  | sched len tok rp now =>
    constructor
    · intro e he
      rcases List.mem_append.mp he with h | h
      · exact hts e h
      · simp at h
        subst h
        intro hc
        exact hev hc
    · simp [timerStep]
  | cancel tok =>
    constructor
    · intro e he
      exact hts e (List.mem_filter.mp he).1
    · simp [timerStep]
  | tick now =>
    constructor
    · intro e he
      rcases List.mem_append.mp he with h | h
      · exact hts e (List.mem_filter.mp h).1
      · rcases List.mem_map.mp h with ⟨orig, horig, heq⟩
        have : orig ∈ ts := (List.mem_filter.mp (List.mem_filter.mp horig).1).1
        rw [← heq]
        exact hts orig this
    · intro hmem
      rcases List.mem_map.mp hmem with ⟨e, he, heq⟩
      exact hts e (List.mem_filter.mp he).1 heq

theorem timerRun_no_fire (t : Token) : ∀ (trace : List TimerEvent) (ts : List TimerEntry),
    (∀ e ∈ ts, e.tok ≠ t) → (∀ ev ∈ trace, ¬schedules t ev) →
    t ∉ (timerRun ts trace).2 := by
  intro trace
  induction trace with
  | nil => intro ts _ _ h; simp [timerRun] at h
  | cons ev evs ih =>
    intro ts hts hsched hmem
    rw [timerRun] at hmem
    have hinv := timerStep_inv hts (hsched ev (by simp))
    rcases List.mem_append.mp hmem with h | h
    · exact hinv.2 h
    · exact ih (timerStep ts ev).1 hinv.1
        (fun e he => hsched e (by simp [he])) h

/-- C8: processing `Cancel(t)` removes every pending timer with token `t`
from the service's pending set, and — as long as no later event
re-schedules `t` — no expiration for `t` is delivered by any subsequent
processing step.  (Fires emitted before the cancel was processed may still
be observed: the documented race.)  The timer service here is modelled from
the spec, since the `timer.rs` in the tree is a stale version without the
`Cancel` request its callers in `main.rs` use. -/
theorem C8_cancel_removes_timer (ts : List TimerEntry) (t : Token) (trace : List TimerEvent)
    (hsched : ∀ ev ∈ trace, ¬schedules t ev) :
    (∀ e ∈ (timerStep ts (TimerEvent.cancel t)).1, e.tok ≠ t) ∧
    t ∉ (timerRun (timerStep ts (TimerEvent.cancel t)).1 trace).2 := by
  have hstate : ∀ e ∈ (timerStep ts (TimerEvent.cancel t)).1, e.tok ≠ t := by
    intro e he
    have := (List.mem_filter.mp he).2
    simpa using this
  exact ⟨hstate, timerRun_no_fire t trace _ hstate hsched⟩

/-- Witness for C8: a pending timer with token 5 is cancelled; a later tick
past its original expiration delivers nothing for token 5. -/
theorem C8_witness :
    5 ∉ (timerRun (timerStep [{ tok := 5, expiration := 10, timer_len := 10, rep := false }]
        (TimerEvent.cancel 5)).1 [TimerEvent.tick 100]).2 :=
  (C8_cancel_removes_timer [{ tok := 5, expiration := 10, timer_len := 10, rep := false }] 5
    [TimerEvent.tick 100]
    (by intro ev hev; simp at hev; subst hev; simp [schedules])).2
